import Mathlib

/-!
Verification development for the upload orchestration of
`src/app.py` (AMI-system/ami-api-streamlit).

The first part (`namespace AmiApp`) is a shallow embedding of the code
under `src/app.py`: the per-batch presign-then-PUT pipeline
(`upload_files`, lines 128-154), the batch slicing
(`upload_files_in_batches`, lines 103-125, Python
`for i in range(0, len(files), batch_size)` with `batch = files[i:i+batch_size]`),
and the 1000-file truncation in `main` (lines 219-225).

Remote interaction is modelled by an `Env` that fixes the outcome of each
remote call: `presign name` is the result of the
`generate-presigned-url` POST issued by `get_presigned_url`
(lines 47-78, a single attempt, `raise_for_status` turned into an
`Except` error carrying the HTTP status), and `put url` is the result of
the S3 PUT issued by `upload_file_to_s3` (lines 81-100).  The
`asyncio.gather(*tasks)` call of `upload_files` runs the PUT coroutines
concurrently; its observable behaviour is modelled by a completion
order `order : List Nat` over the created tasks: the PUTs reach their
terminal states in that order, and — as with
`gather(..., return_exceptions=False)` — the first failure is
propagated to the awaiter at once, so tasks completing later in the
order have not reached a terminal state when `upload_files` returns.
Per-file `st.error` messages become the `errors` field, issued network
requests become the `calls` field.

The second part (`namespace SpecModel`) models, from the words of the
spec only, the components the spec attributes to this repository that
are not present under `src/` (existence-check deduplication, the
retry policy, the resume loop); each such definition carries a
`Modelled from the spec:` doc comment.
-/

/-- One selected file, as built by `handle_upload` line 281:
`(file.name, file.read(), file.type)`. -/
structure FileEntry where
  name : String
  content : List Nat
  ftype : String
deriving DecidableEq

deriving instance DecidableEq for Except

namespace AmiApp

/-- Outcome of a failed remote call: HTTP status plus message, as carried by
the exceptions `raise_for_status` raises in `src/app.py`. -/
structure RemoteErr where
  status : Nat
  msg : String
deriving DecidableEq

/-- The remote world: fixed responses for the presigned-URL POST of
`get_presigned_url` (keyed by file name) and for the S3 PUT of
`upload_file_to_s3` (keyed by the presigned URL). -/
structure Env where
  presign : String → Except RemoteErr String
  put : String → Except RemoteErr Unit

/-- One PUT coroutine created (but not yet run) by `upload_files` line 150:
`upload_file_to_s3(presigned_url, file_content, file_type)`. -/
structure PutTask where
  url : String
  file : FileEntry
deriving DecidableEq

/-- Observables of the sequential first phase of `upload_files`
(lines 144-153): presign requests issued in file order (`calls`), PUT
tasks created for successful presigns (`tasks`), and the per-file
`st.error` messages for failed presigns (`errors`). -/
structure Phase1 where
  calls : List String
  tasks : List PutTask
  errors : List (String × RemoteErr)
deriving DecidableEq

/-- The `for file_name, file_content, file_type in files:` loop of
`upload_files` (lines 145-153): each file gets one presign request; on
success a PUT task is appended, on exception an `st.error` for that file
is recorded and the loop continues. -/
def collectTasks (env : Env) : List FileEntry → Phase1
  | [] => ⟨[], [], []⟩
  | f :: fs =>
    let r := collectTasks env fs
    match env.presign f.name with
    | .ok url => ⟨f.name :: r.calls, ⟨url, f⟩ :: r.tasks, r.errors⟩
    | .error e => ⟨f.name :: r.calls, r.tasks, (f.name, e) :: r.errors⟩

/-- Result of awaiting `asyncio.gather(*tasks)`: names whose PUT reached a
terminal state before the await returned (`completed`, in completion
order), and, if some PUT raised, the name and error of the first failure
in completion order (`raised`), which `gather` propagates immediately. -/
structure GatherOut where
  completed : List String
  raised : Option (String × RemoteErr)
deriving DecidableEq

/-- Walk of the completion order for `asyncio.gather(*tasks)`
(line 154): tasks finish in the order given by `order` (indices into
`tasks`); the first PUT failure is propagated at once, leaving
later tasks without a terminal state at the time the await returns. -/
def runGatherGo (env : Env) (tasks : List PutTask) : List Nat → List String → GatherOut
  | [], acc => ⟨acc.reverse, none⟩
  | i :: rest, acc =>
    match tasks[i]? with
    | none => runGatherGo env tasks rest acc
    | some t =>
      match env.put t.url with
      | .ok _ => runGatherGo env tasks rest (t.file.name :: acc)
      | .error e => ⟨acc.reverse, some (t.file.name, e)⟩

/-- Observables of one `upload_files` call (lines 128-154). -/
structure BatchRun where
  calls : List String
  errors : List (String × RemoteErr)
  tasks : List PutTask
  completed : List String
  raised : Option (String × RemoteErr)
deriving DecidableEq

/-- Embedding of `upload_files` (lines 128-154): sequential presign loop,
then `asyncio.gather` over the created PUT tasks under completion order
`order`. -/
def upload_files (env : Env) (order : List Nat) (files : List FileEntry) : BatchRun :=
  let p := collectTasks env files
  let g := runGatherGo env p.tasks order []
  ⟨p.calls, p.errors, p.tasks, g.completed, g.raised⟩

/-- Events observable across a session, used to state ordering between
batches. -/
inductive Ev where
  | batchStart (i : Nat)
  | presignFail (nm : String)
  | putTerminal (nm : String)
  | putFail (nm : String)
  | batchEnd (i : Nat)
deriving DecidableEq

/-- Event trace of one `upload_files` call: the batch starts, presign
failures are recorded in file order, PUTs reach terminal states in
completion order; the batch either ends normally or ends by the first
PUT failure being propagated. -/
def batchTrace (i : Nat) (r : BatchRun) : List Ev :=
  Ev.batchStart i ::
    (r.errors.map (fun p => Ev.presignFail p.1) ++ r.completed.map Ev.putTerminal ++
      (match r.raised with
       | none => [Ev.batchEnd i]
       | some (nm, _) => [Ev.putFail nm]))

/-- Observables of one `upload_files_in_batches` call. -/
structure SessionRun where
  batchRuns : List BatchRun
  raised : Option (String × RemoteErr)
  trace : List Ev

/-- The `for i in range(0, len(files), batch_size)` loop of
`upload_files_in_batches` (lines 122-125): batches are awaited one after
another; an exception propagated out of `upload_files` (from
`asyncio.gather`) aborts the remaining batches.  `orders` gives the PUT
completion order of each batch, `k` is the index of the first batch. -/
def runBatches (env : Env) (orders : Nat → List Nat) : Nat → List (List FileEntry) → SessionRun
  | _, [] => ⟨[], none, []⟩
  | k, b :: bs =>
    let r := upload_files env (orders k) b
    match r.raised with
    | some e => ⟨[r], some e, batchTrace k r⟩
    | none =>
      let rest := runBatches env orders (k + 1) bs
      ⟨r :: rest.batchRuns, rest.raised, batchTrace k r ++ rest.trace⟩

/-- Python slice `l[i:j]` for nonnegative bounds. -/
def pySlice (l : List α) (i j : Nat) : List α := (l.drop i).take (j - i)

/-- Python `range(0, stop, step)` for `step > 0`: the multiples of `step`
below `stop`; there are `ceil(stop / step)` of them. -/
def pyRange (stop step : Nat) : List Nat :=
  (List.range ((stop + step - 1) / step)).map (fun k => k * step)

/-- The batches formed by `upload_files_in_batches` lines 122-124:
`batch = files[i : i + batch_size]` for `i in range(0, len(files), batch_size)`. -/
def sliceBatches (files : List α) (bs : Nat) : List (List α) :=
  (pyRange files.length bs).map (fun i => pySlice files i (i + bs))

/-- Default of the `batch_size` parameter of `upload_files_in_batches`
(line 104). -/
def batch_size_default : Nat := 50

/-- Embedding of `upload_files_in_batches` (lines 103-125). -/
def upload_files_in_batches (env : Env) (orders : Nat → List Nat)
    (files : List FileEntry) (bs : Nat) : SessionRun :=
  runBatches env orders 0 (sliceBatches files bs)

/-- Per-file observables a batch run produces: files with a recorded
presign error, files whose PUT completed, and the file whose PUT failure
was propagated, if any. -/
def mentions (r : BatchRun) : List String :=
  r.errors.map Prod.fst ++ r.completed ++
    (match r.raised with
     | none => []
     | some (nm, _) => [nm])

/-- All per-file observables of a session. -/
def sessionMentions (s : SessionRun) : List String :=
  (s.batchRuns.map mentions).flatten

/-- All presign requests issued during a session, in order. -/
def sessionCalls (s : SessionRun) : List String :=
  (s.batchRuns.map BatchRun.calls).flatten

/-- The `max_num_files` constant of `main` (line 219). -/
def max_num_files : Nat := 1000

/-- The truncation in `main` lines 220-225: with more than 1000 selected
files, only the first 1000 are kept (`uploaded_files = uploaded_files[:max_num_files]`). -/
def truncate_selection (files : List FileEntry) : List FileEntry :=
  if files.length > max_num_files then files.take max_num_files else files

/-- Embedding of `handle_upload` (lines 298-309): the selected files are
passed to `upload_files_in_batches` with the default batch size (the
input-validation branches only emit warnings and are not modelled). -/
def handle_upload (env : Env) (orders : Nat → List Nat) (files : List FileEntry) : SessionRun :=
  upload_files_in_batches env orders files batch_size_default

/-- Embedding of the submit path of `main` (lines 219-238): truncate the
selection, then hand it to `handle_upload`. -/
def main_submit (env : Env) (orders : Nat → List Nat) (files : List FileEntry) : SessionRun :=
  handle_upload env orders (truncate_selection files)

end AmiApp

namespace SpecModel

/-- Modelled from the spec: the error taxonomy of section 7 — `AuthError`
(401), `ValidationError` (other 4xx), `TransientError` (network/5xx);
only transient errors are retryable (section 4.4).  The corresponding
classification code is not under `src/`. -/
inductive SpecErr where
  | transient (msg : String)
  | auth
  | validation (msg : String)
deriving DecidableEq

/-- Modelled from the spec: the retryability classification of
section 4.4 — `TransientError` retryable, `AuthError` and
`ValidationError` fatal for the item. -/
def retryable : SpecErr → Bool
  | .transient _ => true
  | _ => false

/-- Modelled from the spec: the maximum attempt count of the RetryPolicy,
"observed in source: 5 attempts" (section 4.4); the retry code itself is
not under `src/`. -/
def max_attempts : Nat := 5

/-- Modelled from the spec: the fixed inter-attempt delay of the
RetryPolicy, "2-time-unit delay" (section 4.4). -/
def retry_delay : Nat := 2

/-- Result of running one remote operation under the RetryPolicy: the
final result, the number of attempts made, and the delays slept between
consecutive attempts. -/
structure RetryOut (α : Type) where
  result : Except SpecErr α
  attempts : Nat
  delays : List Nat

/-- Modelled from the spec: the attempt loop of the RetryPolicy
(section 4.4) — `call i` is the outcome of the next attempt (`i` counts
attempts already made), the second argument is the remaining attempt
budget; a retryable failure with budget left sleeps the fixed delay and
retries, any other outcome is surfaced at once; after exhausting the
budget the wrapped error is surfaced unchanged. -/
def runRetryFrom (call : Nat → Except SpecErr α) : Nat → Nat → RetryOut α
  | _, 0 => ⟨.error (.transient "retry budget exhausted"), 0, []⟩
  | i, 1 => ⟨call i, 1, []⟩
  | i, n + 2 =>
    match call i with
    | .ok a => ⟨.ok a, 1, []⟩
    | .error e =>
      if retryable e then
        let r := runRetryFrom call (i + 1) (n + 1)
        ⟨r.result, r.attempts + 1, retry_delay :: r.delays⟩
      else ⟨.error e, 1, []⟩

/-- Modelled from the spec: the RetryPolicy of section 4.4, wrapping a
single remote operation with the configured maximum attempt count. -/
def retryPolicy (call : Nat → Except SpecErr α) : RetryOut α :=
  runRetryFrom call 0 max_attempts

/-- Terminal state of one file's transfer pipeline. -/
inductive FileOutcome where
  | succeeded
  | failed (e : SpecErr)
deriving DecidableEq

/-- Attempt counts and terminal state of one file's pipeline. -/
structure FileRun where
  issueAttempts : Nat
  putAttempts : Nat
  outcome : FileOutcome
deriving DecidableEq

/-- Modelled from the spec: the per-file pipeline of section 4.5 — issue
a presigned grant under the RetryPolicy, then perform the PUT under the
RetryPolicy, the two steps strictly sequential for the same file; a
surfaced error after retries is recorded as that file's failure. -/
def runFilePipeline (issue : Nat → Except SpecErr String)
    (put : String → Nat → Except SpecErr Unit) : FileRun :=
  let gi := retryPolicy issue
  match gi.result with
  | .error e => ⟨gi.attempts, 0, .failed e⟩
  | .ok url =>
    let pu := retryPolicy (put url)
    match pu.result with
    | .error e => ⟨gi.attempts, pu.attempts, .failed e⟩
    | .ok _ => ⟨gi.attempts, pu.attempts, .succeeded⟩

/-- Modelled from the spec: the ExistenceChecker filter of section 4.1 —
given the remote presence oracle `ex`, keep exactly the candidate files
not yet present at the destination; the `check-file-exist` client is not
under `src/`. -/
def existenceFilter (ex : String → Bool) (files : List FileEntry) : List FileEntry :=
  files.filter (fun f => ! ex f.name)

/-- Observables of one Checking+Uploading round of the resume loop:
the names existence-checked, the computed still-missing subset, the
files for which grant issuance was invoked, the files for which a PUT
step actually ran, and the per-file terminal outcomes. -/
structure RoundRun where
  checked : List String
  toUpload : List FileEntry
  granted : List String
  putAttempted : List String
  failedFiles : List (String × SpecErr)
  succeededFiles : List String
deriving DecidableEq

/-- Modelled from the spec: one round of the loop of section 4.6 —
existence-check every candidate, compute `toUpload` (the files not yet
present), and run the per-file pipeline of section 4.5 over exactly
`toUpload`; `granted` records the files for which grant issuance was
invoked, `putAttempted` those whose pipeline reached the PUT step. -/
def runRound (ex : String → Bool) (issue : String → Nat → Except SpecErr String)
    (put : String → Nat → Except SpecErr Unit) (cand : List FileEntry) : RoundRun :=
  let t := existenceFilter ex cand
  let results := t.map (fun f => (f.name, runFilePipeline (issue f.name) put))
  ⟨cand.map (fun f => f.name), t,
   results.map Prod.fst,
   results.filterMap (fun p =>
     match p.2.putAttempts with
     | 0 => none
     | _ + 1 => some p.1),
   results.filterMap (fun p =>
     match p.2.outcome with
     | .failed e => some (p.1, e)
     | .succeeded => none),
   results.filterMap (fun p =>
     match p.2.outcome with
     | .succeeded => some p.1
     | .failed _ => none)⟩

/-- Default `RoundRun`, used with `List.getD`. -/
def roundRunDefault : RoundRun := ⟨[], [], [], [], [], []⟩

/-- Candidate set, computed `toUpload` subset, and whether the upload
step ran, for one round of the resume loop. -/
structure RoundRec where
  cand : List FileEntry
  toUpload : List FileEntry
  uploaded : Bool
deriving DecidableEq

/-- Default `RoundRec`, used with `List.getD`. -/
def roundDefault : RoundRec := ⟨[], [], false⟩

/-- Terminal state of the resume loop. -/
inductive LoopStatus where
  | done
  | stalled (remaining : List String)
deriving DecidableEq

/-- Rounds performed by the resume loop, in order, with its terminal
state. -/
structure LoopRun where
  rounds : List RoundRec
  status : LoopStatus

/-- Modelled from the spec: the ResumeLoop of section 4.6 — each round
existence-checks the current candidate set and computes `toUpload`; if
`toUpload` is empty the loop is Done; if two consecutive rounds produce
an identical `toUpload` set the loop aborts as Stalled (the
no-progress guard of section 4.6 step 5); otherwise the batch upload
runs over `toUpload` and the next round starts with candidate set
`toUpload` (section 4.6 step 4).  `round` is the round number, `first`
is true only for the first round (which has no predecessor to compare
with). -/
def resumeLoop (ex : Nat → String → Bool) (round : Nat) (first : Bool)
    (cand : List FileEntry) : LoopRun :=
  let t := existenceFilter (ex round) cand
  if h0 : t = [] then ⟨[⟨cand, t, false⟩], LoopStatus.done⟩
  else if hs : first = false ∧ t = cand then
    ⟨[⟨cand, t, false⟩], LoopStatus.stalled (t.map (fun f => f.name))⟩
  else
    let rest := resumeLoop ex (round + 1) false t
    ⟨⟨cand, t, true⟩ :: rest.rounds, rest.status⟩
termination_by 2 * cand.length + (if first then 1 else 0)
decreasing_by
  have hsub : (existenceFilter (ex round) cand).Sublist cand := List.filter_sublist cand
  have hle := hsub.length_le
  by_cases hc : existenceFilter (ex round) cand = cand
  · have hf : first = true := by
      cases first with
      | false => exact absurd ⟨rfl, hc⟩ hs
      | true => rfl
    subst hf
    simp [hc]
  · have hlt : (existenceFilter (ex round) cand).length < cand.length :=
      Nat.lt_of_le_of_ne hle (fun h => hc (hsub.eq_of_length h))
    cases first <;> simp <;> omega

/-- Modelled from the spec: a terminal Checking state of the resume loop
(section 4.6 steps 2 and 5) — the candidates are existence-checked and
`toUpload` computed, but no Uploading step runs: no grant is issued and
no PUT is attempted. -/
def checkOnlyRound (ex : String → Bool) (cand : List FileEntry) : RoundRun :=
  ⟨cand.map (fun f => f.name), existenceFilter ex cand, [], [], [], []⟩

/-- Per-round observables of a whole resume-loop session, with its
terminal state. -/
structure SessionTrace where
  rounds : List RoundRun
  status : LoopStatus
deriving DecidableEq

/-- Modelled from the spec: the ResumeLoop of section 4.6, as
`resumeLoop`, but recording each round's full observables: every
non-terminal round performs the Uploading step (`runRound`, which
issues grants and PUTs over exactly its `toUpload`), while the terminal
round (Done on empty `toUpload`, or Stalled on an unchanged set) only
checks. -/
def resumeSessionLoop (ex : Nat → String → Bool)
    (issue : String → Nat → Except SpecErr String)
    (put : String → Nat → Except SpecErr Unit) (round : Nat) (first : Bool)
    (cand : List FileEntry) : SessionTrace :=
  let t := existenceFilter (ex round) cand
  if h0 : t = [] then ⟨[checkOnlyRound (ex round) cand], LoopStatus.done⟩
  else if hs : first = false ∧ t = cand then
    ⟨[checkOnlyRound (ex round) cand], LoopStatus.stalled (t.map (fun f => f.name))⟩
  else
    let rest := resumeSessionLoop ex issue put (round + 1) false t
    ⟨runRound (ex round) issue put cand :: rest.rounds, rest.status⟩
termination_by 2 * cand.length + (if first then 1 else 0)
decreasing_by
  have hsub : (existenceFilter (ex round) cand).Sublist cand := List.filter_sublist cand
  have hle := hsub.length_le
  by_cases hc : existenceFilter (ex round) cand = cand
  · have hf : first = true := by
      cases first with
      | false => exact absurd ⟨rfl, hc⟩ hs
      | true => rfl
    subst hf
    simp [hc]
  · have hlt : (existenceFilter (ex round) cand).length < cand.length :=
      Nat.lt_of_le_of_ne hle (fun h => hc (hsub.eq_of_length h))
    cases first <;> simp <;> omega

end SpecModel

/-! Concrete fixtures used to evaluate the definitions on explicit inputs. -/

/-- Fixture: a file named `a`. -/
def fileA : FileEntry := ⟨"a", [], "image/jpeg"⟩

/-- Fixture: a file named `b`. -/
def fileB : FileEntry := ⟨"b", [], "image/jpeg"⟩

/-- Fixture: a file named `y`, the 51st file of `files51`. -/
def fileY : FileEntry := ⟨"y", [], "image/jpeg"⟩

/-- Fixture: 50 files named `x` followed by one file named `y` — one full
default-size batch plus one further batch. -/
def files51 : List FileEntry := List.replicate 50 ⟨"x", [], "image/jpeg"⟩ ++ [fileY]

/-- Fixture: 100 files named `x`. -/
def files100 : List FileEntry := List.replicate 100 ⟨"x", [], "image/jpeg"⟩

/-- Fixture: 1001 files named `x` — one more than the selection limit. -/
def files1001 : List FileEntry := List.replicate 1001 ⟨"x", [], "image/jpeg"⟩

/-- Fixture environment: every presign request succeeds (the URL is the
file name) and every PUT succeeds. -/
def envAllOk : AmiApp.Env := ⟨fun n => .ok n, fun _ => .ok ()⟩

/-- Fixture environment: the presign request for file `a` fails with
HTTP 401; every other presign and every PUT succeeds. -/
def envAuth401 : AmiApp.Env :=
  ⟨fun n => if n = "a" then .error ⟨401, "Unauthorized"⟩ else .ok n, fun _ => .ok ()⟩

/-- Fixture environment: every presign succeeds; the PUT against URL `a`
fails with HTTP 500, every other PUT succeeds. -/
def envPutFailA : AmiApp.Env :=
  ⟨fun n => .ok n, fun u => if u = "a" then .error ⟨500, "boom"⟩ else .ok ()⟩

/-- Fixture environment: every presign succeeds and every PUT fails with
HTTP 500. -/
def envPutFailAll : AmiApp.Env := ⟨fun n => .ok n, fun _ => .error ⟨500, "boom"⟩⟩

/-- Fixture completion orders: every batch completes its PUTs in index
order over a 50-task batch. -/
def orders50 : Nat → List Nat := fun _ => List.range 50

/-- Fixture completion orders: the single task of each of the first two
batches, nothing afterwards. -/
def ordersW : Nat → List Nat := fun j => if j < 2 then [0] else []

/-- Fixture completion orders: one task per batch. -/
def ordersOne : Nat → List Nat := fun _ => [0]

/-- Fixture existence oracle: every file already exists remotely in every
round. -/
def exTrue : Nat → String → Bool := fun _ _ => true

/-- Fixture existence oracle: only the file named `b` exists remotely. -/
def exB : String → Bool := fun n => n == "b"

/-- Fixture existence oracle over rounds: only the file named `b` exists
remotely, in every round. -/
def exW : Nat → String → Bool := fun _ n => n == "b"

/-- Fixture issuer for the spec model: always grants (the grant is the
file name). -/
def issueOk : String → Nat → Except SpecModel.SpecErr String := fun n _ => .ok n

/-- Fixture PUT for the spec model: always succeeds. -/
def putOkS : String → Nat → Except SpecModel.SpecErr Unit := fun _ _ => .ok ()

/-- Fixture remote call that fails with the same transient error on every
attempt. -/
def callBoom : Nat → Except SpecModel.SpecErr Unit := fun _ => .error (.transient "boom")

/-- Fixture issuer that fails with the same transient error on every
attempt. -/
def issueBoom : Nat → Except SpecModel.SpecErr String := fun _ => .error (.transient "boom")

namespace AmiApp

theorem pyRange_zero (step : Nat) : pyRange 0 step = [] := by
  unfold pyRange
  have h : (0 + step - 1) / step = 0 := by
    cases step with
    | zero => rfl
    | succ s => exact Nat.div_eq_of_lt (by omega)
  rw [h]
  rfl

theorem pyRange_cons {n step : Nat} (hs : 0 < step) (hn : 0 < n) :
    pyRange n step = 0 :: (pyRange (n - step) step).map (fun i => i + step) := by
  have key : ∀ m, 0 < m → (m + step - 1) / step = (m - 1) / step + 1 := by
    intro m hm
    have h : m + step - 1 = (m - 1) + step := by omega
    rw [h, Nat.add_div_right _ hs]
  have hcount : (n + step - 1) / step = (n - step + step - 1) / step + 1 := by
    rcases le_or_lt n step with hns | hns
    · have h0 : n - step = 0 := by omega
      rw [key n hn, h0]
      have h1 : (n - 1) / step = 0 := Nat.div_eq_of_lt (by omega)
      have h2 : (0 + step - 1) / step = 0 := Nat.div_eq_of_lt (by omega)
      rw [h1, h2]
    · rw [key n hn, key (n - step) (by omega)]
      have h3 : n - step - 1 + step = n - 1 := by omega
      rw [← h3, Nat.add_div_right _ hs]
  unfold pyRange
  rw [hcount, List.range_succ_eq_map]
  simp only [List.map_cons, Nat.zero_mul, List.map_map]
  congr 1
  apply List.map_congr_left
  intro k _
  simp [Function.comp, Nat.succ_mul]

theorem sliceBatches_nil (bs : Nat) : sliceBatches ([] : List α) bs = [] := by
  simp [sliceBatches, pyRange_zero]

theorem sliceBatches_cons {bs : Nat} (hs : 0 < bs) (l : List α) (hl : l ≠ []) :
    sliceBatches l bs = l.take bs :: sliceBatches (l.drop bs) bs := by
  unfold sliceBatches
  rw [pyRange_cons hs (List.length_pos.mpr hl)]
  simp only [List.map_cons, List.map_map]
  congr 1
  · simp [pySlice]
  · rw [List.length_drop]
    apply List.map_congr_left
    intro j _
    simp only [Function.comp, pySlice]
    rw [List.drop_drop]
    have h1 : j + bs + bs - (j + bs) = bs := by omega
    have h2 : j + bs - j = bs := by omega
    have h3 : bs + j = j + bs := by omega
    rw [h1, h2, h3]

theorem sliceBatches_flatten {bs : Nat} (hs : 0 < bs) :
    ∀ (l : List α), (sliceBatches l bs).flatten = l := by
  have main : ∀ (n : Nat) (l : List α), l.length ≤ n → (sliceBatches l bs).flatten = l := by
    intro n
    induction n with
    | zero =>
      intro l hl
      have h : l = [] := List.eq_nil_of_length_eq_zero (Nat.le_zero.mp hl)
      rw [h, sliceBatches_nil]
      rfl
    | succ n ih =>
      intro l hl
      rcases eq_or_ne l [] with rfl | hne
      · rw [sliceBatches_nil]; rfl
      · rw [sliceBatches_cons hs l hne, List.flatten_cons,
          ih (l.drop bs) (by rw [List.length_drop]; omega), List.take_append_drop]
  intro l
  exact main l.length l le_rfl

theorem sliceBatches_getD {bs : Nat} (hs : 0 < bs) :
    ∀ (l : List α) (i : Nat), (sliceBatches l bs).getD i [] = (l.drop (i * bs)).take bs := by
  have main : ∀ (n : Nat) (l : List α) (i : Nat), l.length ≤ n →
      (sliceBatches l bs).getD i [] = (l.drop (i * bs)).take bs := by
    intro n
    induction n with
    | zero =>
      intro l i hl
      have h : l = [] := List.eq_nil_of_length_eq_zero (Nat.le_zero.mp hl)
      subst h
      simp [sliceBatches_nil]
    | succ n ih =>
      intro l i hl
      rcases eq_or_ne l [] with rfl | hne
      · simp [sliceBatches_nil]
      · rw [sliceBatches_cons hs l hne]
        cases i with
        | zero => simp
        | succ i =>
          rw [List.getD_cons_succ, ih (l.drop bs) i (by rw [List.length_drop]; omega),
            List.drop_drop]
          congr 2
          ring
  intro l i
  exact main l.length l i le_rfl

theorem collectTasks_eq (env : Env) : ∀ fs : List FileEntry,
    collectTasks env fs =
      ⟨fs.map (fun f => f.name),
       fs.filterMap (fun f =>
         match env.presign f.name with
         | .ok u => some ⟨u, f⟩
         | .error _ => none),
       fs.filterMap (fun f =>
         match env.presign f.name with
         | .ok _ => none
         | .error e => some (f.name, e))⟩ := by
  intro fs
  induction fs with
  | nil => rfl
  | cons f fs ih =>
    simp only [collectTasks, ih, List.filterMap_cons, List.map_cons]
    cases h : env.presign f.name <;> simp [h]

theorem phase1_names_perm (env : Env) : ∀ fs : List FileEntry,
    ((collectTasks env fs).errors.map Prod.fst ++
      (collectTasks env fs).tasks.map (fun t => t.file.name)).Perm
      (fs.map (fun f => f.name)) := by
  intro fs
  induction fs with
  | nil => simp [collectTasks]
  | cons f fs ih =>
    simp only [collectTasks]
    cases h : env.presign f.name with
    | ok u =>
      simp only [h, List.map_cons, List.cons_append]
      exact List.Perm.trans List.perm_middle (ih.cons f.name)
    | error e =>
      simp only [h, List.map_cons, List.cons_append]
      exact ih.cons f.name

theorem runGatherGo_allOk (env : Env) (tasks : List PutTask)
    (hput : ∀ u, env.put u = .ok ()) :
    ∀ (order : List Nat) (acc : List String),
      runGatherGo env tasks order acc =
        ⟨acc.reverse ++ order.filterMap (fun i => (tasks[i]?).map (fun t => t.file.name)),
         none⟩ := by
  intro order
  induction order with
  | nil => intro acc; simp [runGatherGo]
  | cons i rest ih =>
    intro acc
    simp only [runGatherGo, List.filterMap_cons]
    cases h : tasks[i]? with
    | none => simp [h, ih]
    | some t => simp [h, hput t.url, ih, List.append_assoc]

theorem runGatherGo_none_completed (env : Env) (tasks : List PutTask) :
    ∀ (order : List Nat) (acc : List String),
      (runGatherGo env tasks order acc).raised = none →
      (runGatherGo env tasks order acc).completed =
        acc.reverse ++ order.filterMap (fun i => (tasks[i]?).map (fun t => t.file.name)) := by
  intro order
  induction order with
  | nil => intro acc _; simp [runGatherGo]
  | cons i rest ih =>
    intro acc hr
    simp only [runGatherGo, List.filterMap_cons] at hr ⊢
    cases h : tasks[i]? with
    | none => simp only [h] at hr ⊢; simp [ih acc hr]
    | some t =>
      cases hp : env.put t.url with
      | ok _ =>
        simp only [h, hp] at hr ⊢
        rw [ih _ hr]
        simp [List.append_assoc]
      | error e => simp [h, hp] at hr

theorem runGatherGo_completed_sub (env : Env) (tasks : List PutTask) :
    ∀ (order : List Nat) (acc : List String) (x : String),
      x ∈ (runGatherGo env tasks order acc).completed →
      x ∈ acc.reverse ∨ x ∈ tasks.map (fun t => t.file.name) := by
  intro order
  induction order with
  | nil => intro acc x hx; simp only [runGatherGo] at hx; exact Or.inl hx
  | cons i rest ih =>
    intro acc x hx
    simp only [runGatherGo] at hx
    cases h : tasks[i]? with
    | none =>
      rw [h] at hx
      exact ih acc x hx
    | some t =>
      rw [h] at hx
      cases hp : env.put t.url with
      | ok _ =>
        simp only [hp] at hx
        rcases ih _ x hx with hacc | htasks
        · simp only [List.reverse_cons, List.mem_append, List.mem_singleton] at hacc
          rcases hacc with hacc | rfl
          · exact Or.inl hacc
          · exact Or.inr (List.mem_map.mpr ⟨t, List.getElem?_mem h, rfl⟩)
        · exact Or.inr htasks
      | error e =>
        simp only [hp] at hx
        exact Or.inl hx

theorem runGatherGo_raised_sub (env : Env) (tasks : List PutTask) :
    ∀ (order : List Nat) (acc : List String) (nm : String) (e : RemoteErr),
      (runGatherGo env tasks order acc).raised = some (nm, e) →
      nm ∈ tasks.map (fun t => t.file.name) := by
  intro order
  induction order with
  | nil => intro acc nm e h; simp [runGatherGo] at h
  | cons i rest ih =>
    intro acc nm e hr
    simp only [runGatherGo] at hr
    cases h : tasks[i]? with
    | none =>
      rw [h] at hr
      exact ih acc nm e hr
    | some t =>
      rw [h] at hr
      cases hp : env.put t.url with
      | ok _ =>
        simp only [hp] at hr
        exact ih _ nm e hr
      | error e2 =>
        simp only [hp] at hr
        change some (t.file.name, e2) = some (nm, e) at hr
        have h4 : t.file.name = nm := congrArg Prod.fst (Option.some.inj hr)
        rw [← h4]
        exact List.mem_map.mpr ⟨t, List.getElem?_mem h, rfl⟩

theorem range_filterMap_getElem {β γ : Type} (g : β → γ) : ∀ (l : List β),
    (List.range l.length).filterMap (fun i => (l[i]?).map g) = l.map g := by
  intro l
  induction l with
  | nil => simp
  | cons x xs ih =>
    rw [List.length_cons, List.range_succ_eq_map, List.filterMap_cons, List.filterMap_map]
    have hfun : ((fun i => ((x :: xs)[i]?).map g) ∘ Nat.succ) = fun i => (xs[i]?).map g := by
      funext i
      simp
    rw [hfun, ih]
    simp

theorem upload_files_calls (env : Env) (order : List Nat) (files : List FileEntry) :
    (upload_files env order files).calls = files.map (fun f => f.name) := by
  simp [upload_files, collectTasks_eq]

theorem upload_files_tasks (env : Env) (order : List Nat) (files : List FileEntry) :
    (upload_files env order files).tasks = (collectTasks env files).tasks := rfl

theorem upload_files_errors (env : Env) (order : List Nat) (files : List FileEntry) :
    (upload_files env order files).errors = (collectTasks env files).errors := rfl

theorem upload_files_errors_mem (env : Env) (order : List Nat) (files : List FileEntry)
    {f : FileEntry} {e : RemoteErr} (hf : f ∈ files) (he : env.presign f.name = .error e) :
    (f.name, e) ∈ (upload_files env order files).errors := by
  rw [upload_files_errors, collectTasks_eq]
  exact List.mem_filterMap.mpr ⟨f, hf, by rw [he]⟩

theorem upload_files_allOk (env : Env) (order : List Nat) (files : List FileEntry)
    (hput : ∀ u, env.put u = .ok ()) :
    (upload_files env order files).raised = none ∧
    (upload_files env order files).completed =
      order.filterMap (fun i => ((collectTasks env files).tasks[i]?).map (fun t => t.file.name)) := by
  have h := runGatherGo_allOk env (collectTasks env files).tasks hput order []
  constructor
  · show (runGatherGo env (collectTasks env files).tasks order []).raised = none
    rw [h]
  · show (runGatherGo env (collectTasks env files).tasks order []).completed = _
    rw [h]
    simp

theorem upload_files_completed_perm (env : Env) (order : List Nat) (files : List FileEntry)
    (hput : ∀ u, env.put u = .ok ())
    (hv : order.Perm (List.range (collectTasks env files).tasks.length)) :
    (upload_files env order files).completed.Perm
      ((collectTasks env files).tasks.map (fun t => t.file.name)) := by
  rw [(upload_files_allOk env order files hput).2]
  have h2 := range_filterMap_getElem (fun t : PutTask => t.file.name) (collectTasks env files).tasks
  exact h2 ▸ hv.filterMap (fun i => ((collectTasks env files).tasks[i]?).map (fun t => t.file.name))

theorem mentions_perm (env : Env) (order : List Nat) (files : List FileEntry)
    (hput : ∀ u, env.put u = .ok ())
    (hv : order.Perm (List.range (collectTasks env files).tasks.length)) :
    (mentions (upload_files env order files)).Perm (files.map (fun f => f.name)) := by
  have hr := (upload_files_allOk env order files hput).1
  unfold mentions
  rw [hr, upload_files_errors]
  have h1 : ((collectTasks env files).errors.map Prod.fst ++
      (upload_files env order files).completed ++ []).Perm
      ((collectTasks env files).errors.map Prod.fst ++
        (collectTasks env files).tasks.map (fun t : PutTask => t.file.name)) := by
    rw [List.append_nil]
    exact List.Perm.append_left _ (upload_files_completed_perm env order files hput hv)
  exact List.Perm.trans h1 (phase1_names_perm env files)

theorem mentions_sub (env : Env) (order : List Nat) (files : List FileEntry) :
    ∀ x ∈ mentions (upload_files env order files), x ∈ files.map (fun f => f.name) := by
  intro x hx
  unfold mentions at hx
  rcases List.mem_append.mp hx with hx1 | hxr
  · rcases List.mem_append.mp hx1 with hxe | hxc
    · rw [upload_files_errors, collectTasks_eq] at hxe
      rcases List.mem_map.mp hxe with ⟨p, hp, rfl⟩
      rcases List.mem_filterMap.mp hp with ⟨f, hf, hres⟩
      cases h : env.presign f.name with
      | ok u => rw [h] at hres; exact absurd hres (by simp)
      | error e =>
        rw [h] at hres
        have : p = (f.name, e) := by
          have := hres
          simp at this
          exact this.symm
        rw [this]
        exact List.mem_map.mpr ⟨f, hf, rfl⟩
    · have hsub := runGatherGo_completed_sub env (collectTasks env files).tasks order [] x hxc
      rcases hsub with habs | htn
      · simp at habs
      · rcases List.mem_map.mp htn with ⟨t, ht, rfl⟩
        rw [collectTasks_eq] at ht
        rcases List.mem_filterMap.mp ht with ⟨f, hf, hres⟩
        cases h : env.presign f.name with
        | ok u =>
          rw [h] at hres
          have : t = ⟨u, f⟩ := by
            have := hres
            simp at this
            exact this.symm
          rw [this]
          exact List.mem_map.mpr ⟨f, hf, rfl⟩
        | error e => rw [h] at hres; exact absurd hres (by simp)
  · cases hra : (upload_files env order files).raised with
    | none => rw [hra] at hxr; simp at hxr
    | some p =>
      rw [hra] at hxr
      rcases p with ⟨nm, e⟩
      have hx2 : x = nm := by
        simp at hxr
        exact hxr
      have hmem := runGatherGo_raised_sub env (collectTasks env files).tasks order [] nm e hra
      rw [hx2]
      rcases List.mem_map.mp hmem with ⟨t, ht, rfl⟩
      rw [collectTasks_eq] at ht
      rcases List.mem_filterMap.mp ht with ⟨f, hf, hres⟩
      cases h : env.presign f.name with
      | ok u =>
        rw [h] at hres
        have : t = ⟨u, f⟩ := by
          have := hres
          simp at this
          exact this.symm
        rw [this]
        exact List.mem_map.mpr ⟨f, hf, rfl⟩
      | error e2 => rw [h] at hres; exact absurd hres (by simp)

theorem runBatches_allOk (env : Env) (orders : Nat → List Nat)
    (hput : ∀ u, env.put u = .ok ()) :
    ∀ (bl : List (List FileEntry)) (k : Nat),
      (∀ i, i < bl.length →
        (orders (k + i)).Perm (List.range (collectTasks env (bl.getD i [])).tasks.length)) →
      (runBatches env orders k bl).raised = none ∧
      (sessionMentions (runBatches env orders k bl)).Perm
        (bl.flatten.map (fun f => f.name)) ∧
      sessionCalls (runBatches env orders k bl) = bl.flatten.map (fun f => f.name) ∧
      (∀ f e, f ∈ bl.flatten → env.presign f.name = .error e →
        ∃ r ∈ (runBatches env orders k bl).batchRuns, (f.name, e) ∈ r.errors) := by
  intro bl
  induction bl with
  | nil =>
    intro k _
    refine ⟨rfl, by simp [sessionMentions, runBatches], rfl, ?_⟩
    intro f e hf
    simp at hf
  | cons b bs ih =>
    intro k hv
    have hr : (upload_files env (orders k) b).raised = none :=
      (upload_files_allOk env (orders k) b hput).1
    have hv0 : (orders k).Perm (List.range (collectTasks env b).tasks.length) := by
      have h := hv 0 (by simp)
      simpa using h
    have hvs : ∀ i, i < bs.length →
        (orders (k + 1 + i)).Perm (List.range (collectTasks env (bs.getD i [])).tasks.length) := by
      intro i hi
      have h := hv (i + 1) (by simp; omega)
      have harith : k + (i + 1) = k + 1 + i := by omega
      rw [harith] at h
      simpa using h
    obtain ⟨ihr, ihm, ihc, ihe⟩ := ih (k + 1) hvs
    have hstep : runBatches env orders k (b :: bs) =
        ⟨upload_files env (orders k) b :: (runBatches env orders (k + 1) bs).batchRuns,
         (runBatches env orders (k + 1) bs).raised,
         batchTrace k (upload_files env (orders k) b) ++
           (runBatches env orders (k + 1) bs).trace⟩ := by
      simp only [runBatches, hr]
    rw [hstep]
    refine ⟨ihr, ?_, ?_, ?_⟩
    · show ((List.map mentions (upload_files env (orders k) b ::
        (runBatches env orders (k + 1) bs).batchRuns)).flatten).Perm _
      rw [List.map_cons, List.flatten_cons, List.flatten_cons, List.map_append]
      exact List.Perm.append (mentions_perm env (orders k) b hput hv0) ihm
    · show (List.map BatchRun.calls (upload_files env (orders k) b ::
        (runBatches env orders (k + 1) bs).batchRuns)).flatten = _
      rw [List.map_cons, List.flatten_cons, List.flatten_cons, List.map_append]
      rw [show BatchRun.calls (upload_files env (orders k) b) =
        (upload_files env (orders k) b).calls from rfl]
      rw [upload_files_calls]
      exact congrArg (fun l => List.map (fun f => f.name) b ++ l) ihc
    · intro f e hf hpre
      rw [List.flatten_cons] at hf
      rcases List.mem_append.mp hf with hfb | hfs
      · exact ⟨upload_files env (orders k) b, List.mem_cons_self _ _,
          upload_files_errors_mem env (orders k) b hfb hpre⟩
      · obtain ⟨r2, hr2, hmem⟩ := ihe f e hfs hpre
        exact ⟨r2, List.mem_cons_of_mem _ hr2, hmem⟩

theorem runBatches_calls_errors (env : Env) (orders : Nat → List Nat)
    (hput : ∀ u, env.put u = .ok ()) :
    ∀ (bl : List (List FileEntry)) (k : Nat),
      (runBatches env orders k bl).raised = none ∧
      sessionCalls (runBatches env orders k bl) = bl.flatten.map (fun f => f.name) ∧
      (∀ f e, f ∈ bl.flatten → env.presign f.name = .error e →
        ∃ r ∈ (runBatches env orders k bl).batchRuns, (f.name, e) ∈ r.errors) := by
  intro bl
  induction bl with
  | nil =>
    intro k
    refine ⟨rfl, rfl, ?_⟩
    intro f e hf
    simp at hf
  | cons b bs ih =>
    intro k
    have hr : (upload_files env (orders k) b).raised = none :=
      (upload_files_allOk env (orders k) b hput).1
    obtain ⟨ihr, ihc, ihe⟩ := ih (k + 1)
    have hstep : runBatches env orders k (b :: bs) =
        ⟨upload_files env (orders k) b :: (runBatches env orders (k + 1) bs).batchRuns,
         (runBatches env orders (k + 1) bs).raised,
         batchTrace k (upload_files env (orders k) b) ++
           (runBatches env orders (k + 1) bs).trace⟩ := by
      simp only [runBatches, hr]
    rw [hstep]
    refine ⟨ihr, ?_, ?_⟩
    · show (List.map BatchRun.calls (upload_files env (orders k) b ::
        (runBatches env orders (k + 1) bs).batchRuns)).flatten = _
      rw [List.map_cons, List.flatten_cons, List.flatten_cons, List.map_append]
      rw [show BatchRun.calls (upload_files env (orders k) b) =
        (upload_files env (orders k) b).calls from rfl]
      rw [upload_files_calls]
      exact congrArg (fun l => List.map (fun f => f.name) b ++ l) ihc
    · intro f e hf hpre
      rw [List.flatten_cons] at hf
      rcases List.mem_append.mp hf with hfb | hfs
      · exact ⟨upload_files env (orders k) b, List.mem_cons_self _ _,
          upload_files_errors_mem env (orders k) b hfb hpre⟩
      · obtain ⟨r2, hr2, hmem⟩ := ihe f e hfs hpre
        exact ⟨r2, List.mem_cons_of_mem _ hr2, hmem⟩

theorem runBatches_mentions_sub (env : Env) (orders : Nat → List Nat) :
    ∀ (bl : List (List FileEntry)) (k : Nat) (x : String),
      x ∈ sessionMentions (runBatches env orders k bl) →
      x ∈ bl.flatten.map (fun f => f.name) := by
  intro bl
  induction bl with
  | nil =>
    intro k x hx
    simp [sessionMentions, runBatches] at hx
  | cons b bs ih =>
    intro k x hx
    rw [List.flatten_cons, List.map_append]
    cases hr : (upload_files env (orders k) b).raised with
    | some e =>
      simp only [runBatches, hr, sessionMentions, List.map_cons, List.map_nil,
        List.flatten_cons, List.flatten_nil, List.append_nil] at hx
      exact List.mem_append.mpr (Or.inl (mentions_sub env (orders k) b x hx))
    | none =>
      simp only [runBatches, hr, sessionMentions, List.map_cons, List.flatten_cons] at hx
      rcases List.mem_append.mp hx with h1 | h2
      · exact List.mem_append.mpr (Or.inl (mentions_sub env (orders k) b x h1))
      · exact List.mem_append.mpr (Or.inr (ih (k + 1) x h2))

theorem batchStart_mem_batchTrace {m k : Nat} {r : BatchRun}
    (h : Ev.batchStart m ∈ batchTrace k r) : m = k := by
  unfold batchTrace at h
  rcases List.mem_cons.mp h with h1 | h2
  · exact Ev.batchStart.inj h1
  · exfalso
    rcases List.mem_append.mp h2 with h3 | h4
    · rcases List.mem_append.mp h3 with h5 | h6
      · rcases List.mem_map.mp h5 with ⟨p, _, hp⟩
        exact Ev.noConfusion hp
      · rcases List.mem_map.mp h6 with ⟨nm, _, hp⟩
        exact Ev.noConfusion hp
    · cases hra : r.raised with
      | none =>
        rw [hra] at h4
        rcases List.mem_singleton.mp h4 with h5
        exact Ev.noConfusion h5
      | some p =>
        rcases p with ⟨nm, e⟩
        rw [hra] at h4
        rcases List.mem_singleton.mp h4 with h5
        exact Ev.noConfusion h5

theorem batchEnd_mem_batchTrace {k : Nat} {r : BatchRun} (hr : r.raised = none) :
    Ev.batchEnd k ∈ batchTrace k r := by
  unfold batchTrace
  rw [hr]
  exact List.mem_cons_of_mem _ (List.mem_append.mpr (Or.inr (List.mem_singleton.mpr rfl)))

theorem batch_covers_trace (env : Env) (ord : List Nat) (b : List FileEntry) (k : Nat)
    (hr : (upload_files env ord b).raised = none)
    (hv : ord.Perm (List.range (collectTasks env b).tasks.length)) :
    ∀ f ∈ b, Ev.presignFail f.name ∈ batchTrace k (upload_files env ord b) ∨
      Ev.putTerminal f.name ∈ batchTrace k (upload_files env ord b) := by
  intro f hf
  have hsplit : (∃ e, (f.name, e) ∈ (upload_files env ord b).errors) ∨
      f.name ∈ (collectTasks env b).tasks.map (fun t : PutTask => t.file.name) := by
    cases hps : env.presign f.name with
    | error e => exact Or.inl ⟨e, upload_files_errors_mem env ord b hf hps⟩
    | ok u =>
      refine Or.inr ?_
      rw [collectTasks_eq]
      exact List.mem_map.mpr ⟨⟨u, f⟩, List.mem_filterMap.mpr ⟨f, hf, by rw [hps]⟩, rfl⟩
  rcases hsplit with ⟨e, he⟩ | htn
  · left
    unfold batchTrace
    exact List.mem_cons_of_mem _ (List.mem_append.mpr (Or.inl (List.mem_append.mpr
      (Or.inl (List.mem_map.mpr ⟨(f.name, e), he, rfl⟩)))))
  · right
    have hcomp : (upload_files env ord b).completed =
        ord.filterMap (fun i => ((collectTasks env b).tasks[i]?).map (fun t => t.file.name)) := by
      have h := runGatherGo_none_completed env (collectTasks env b).tasks ord [] hr
      simpa using h
    have hperm : (upload_files env ord b).completed.Perm
        ((collectTasks env b).tasks.map (fun t : PutTask => t.file.name)) := by
      rw [hcomp]
      have h2 := range_filterMap_getElem (fun t : PutTask => t.file.name)
        (collectTasks env b).tasks
      exact h2 ▸ hv.filterMap _
    have hmem : f.name ∈ (upload_files env ord b).completed := hperm.mem_iff.mpr htn
    unfold batchTrace
    exact List.mem_cons_of_mem _ (List.mem_append.mpr (Or.inl (List.mem_append.mpr
      (Or.inr (List.mem_map.mpr ⟨f.name, hmem, rfl⟩)))))

theorem runBatches_start_split (env : Env) (orders : Nat → List Nat) :
    ∀ (bl : List (List FileEntry)) (k j : Nat) (pre suf : List Ev),
      (∀ i, i < bl.length →
        (orders (k + i)).Perm (List.range (collectTasks env (bl.getD i [])).tasks.length)) →
      (runBatches env orders k bl).trace = pre ++ Ev.batchStart (k + j + 1) :: suf →
      (∀ f ∈ bl.getD j [], Ev.presignFail f.name ∈ pre ∨ Ev.putTerminal f.name ∈ pre) ∧
      Ev.batchEnd (k + j) ∈ pre := by
  intro bl
  induction bl with
  | nil =>
    intro k j pre suf _ htr
    simp [runBatches] at htr
  | cons b bs ih =>
    intro k j pre suf hv htr
    have hv0 : (orders k).Perm (List.range (collectTasks env b).tasks.length) := by
      have h := hv 0 (by simp)
      simpa using h
    have hvs : ∀ i, i < bs.length →
        (orders (k + 1 + i)).Perm (List.range (collectTasks env (bs.getD i [])).tasks.length) := by
      intro i hi
      have h := hv (i + 1) (by simp; omega)
      have harith : k + (i + 1) = k + 1 + i := by omega
      rw [harith] at h
      simpa using h
    cases hr : (upload_files env (orders k) b).raised with
    | some e =>
      simp only [runBatches, hr] at htr
      have hmem : Ev.batchStart (k + j + 1) ∈ batchTrace k (upload_files env (orders k) b) := by
        rw [htr]
        exact List.mem_append.mpr (Or.inr (List.mem_cons_self _ _))
      have h := batchStart_mem_batchTrace hmem
      omega
    | none =>
      simp only [runBatches, hr] at htr
      rcases List.append_eq_append_iff.mp htr with ⟨a2, ha1, ha2⟩ | ⟨c2, hc1, hc2⟩
      · -- pre = batchTrace ++ a2, separator inside the tail session
        cases j with
        | zero =>
          rw [ha1]
          constructor
          · intro f hf
            have h := batch_covers_trace env (orders k) b k hr hv0 f (by simpa using hf)
            rcases h with h1 | h1
            · exact Or.inl (List.mem_append.mpr (Or.inl h1))
            · exact Or.inr (List.mem_append.mpr (Or.inl h1))
          · exact List.mem_append.mpr (Or.inl (batchEnd_mem_batchTrace hr))
        | succ j2 =>
          have harith : k + (j2 + 1) + 1 = (k + 1) + j2 + 1 := by omega
          rw [harith] at ha2
          obtain ⟨hterm, hend⟩ := ih (k + 1) j2 a2 suf hvs ha2
          rw [ha1]
          constructor
          · intro f hf
            rcases hterm f (by simpa using hf) with h1 | h1
            · exact Or.inl (List.mem_append.mpr (Or.inr h1))
            · exact Or.inr (List.mem_append.mpr (Or.inr h1))
          · have harith2 : k + (j2 + 1) = (k + 1) + j2 := by omega
            rw [harith2]
            exact List.mem_append.mpr (Or.inr hend)
      · -- batchTrace = pre ++ c2
        cases c2 with
        | nil =>
          rw [List.append_nil] at hc1
          rw [List.nil_append] at hc2
          cases j with
          | zero =>
            rw [← hc1]
            constructor
            · intro f hf
              exact batch_covers_trace env (orders k) b k hr hv0 f (by simpa using hf)
            · exact batchEnd_mem_batchTrace hr
          | succ j2 =>
            have harith : k + (j2 + 1) + 1 = (k + 1) + j2 + 1 := by omega
            rw [harith] at hc2
            obtain ⟨hterm, hend⟩ := ih (k + 1) j2 [] suf hvs hc2.symm
            simp at hend
        | cons x c3 =>
          rw [List.cons_append] at hc2
          have hx : x = Ev.batchStart (k + j + 1) := by
            injection hc2 with h1 h2
            exact h1.symm
          exfalso
          have hmem : Ev.batchStart (k + j + 1) ∈ batchTrace k (upload_files env (orders k) b) := by
            rw [hc1, hx]
            exact List.mem_append.mpr (Or.inr (List.mem_cons_self _ _))
          have h := batchStart_mem_batchTrace hmem
          omega

end AmiApp

namespace SpecModel

theorem runRetryFrom_transient {α : Type} (m : String) (call : Nat → Except SpecErr α)
    (h : ∀ k, call k = .error (.transient m)) :
    ∀ (n i : Nat), 0 < n →
      runRetryFrom call i n =
        ⟨.error (.transient m), n, List.replicate (n - 1) retry_delay⟩ := by
  intro n
  induction n with
  | zero => intro i h0; omega
  | succ n ihn =>
    intro i _
    cases n with
    | zero => simp [runRetryFrom, h i]
    | succ n2 =>
      simp only [runRetryFrom, h i, retryable]
      rw [ihn (i + 1) (by omega)]
      simp [List.replicate_succ]

theorem retryPolicy_transient {α : Type} (m : String) (call : Nat → Except SpecErr α)
    (h : ∀ k, call k = .error (.transient m)) :
    retryPolicy call =
      ⟨.error (.transient m), max_attempts, List.replicate (max_attempts - 1) retry_delay⟩ := by
  unfold retryPolicy
  exact runRetryFrom_transient m call h max_attempts 0 (by norm_num [max_attempts])

theorem runFilePipeline_issue_fail (m : String) (issue : Nat → Except SpecErr String)
    (put : String → Nat → Except SpecErr Unit)
    (h : ∀ k, issue k = .error (.transient m)) :
    runFilePipeline issue put = ⟨max_attempts, 0, .failed (.transient m)⟩ := by
  unfold runFilePipeline
  rw [retryPolicy_transient m issue h]

theorem runRound_granted (ex : String → Bool) (issue : String → Nat → Except SpecErr String)
    (put : String → Nat → Except SpecErr Unit) (cand : List FileEntry) :
    (runRound ex issue put cand).granted = (existenceFilter ex cand).map (fun f => f.name) := by
  unfold runRound
  simp [List.map_map]

theorem runRound_toUpload (ex : String → Bool) (issue : String → Nat → Except SpecErr String)
    (put : String → Nat → Except SpecErr Unit) (cand : List FileEntry) :
    (runRound ex issue put cand).toUpload = existenceFilter ex cand := rfl

theorem runRound_putAttempted_sub (ex : String → Bool)
    (issue : String → Nat → Except SpecErr String)
    (put : String → Nat → Except SpecErr Unit) (cand : List FileEntry) :
    (runRound ex issue put cand).putAttempted ⊆ (runRound ex issue put cand).granted := by
  intro nm hnm
  unfold runRound at hnm ⊢
  rcases List.mem_filterMap.mp hnm with ⟨p, hp, heq⟩
  cases hc : p.2.putAttempts with
  | zero => rw [hc] at heq; exact Option.noConfusion heq
  | succ n =>
    rw [hc] at heq
    have hnm2 : p.1 = nm := Option.some.inj heq
    exact hnm2 ▸ List.mem_map.mpr ⟨p, hp, rfl⟩

theorem existenceFilter_mem {ex : String → Bool} {cand : List FileEntry} {g : FileEntry}
    (hg : g ∈ existenceFilter ex cand) : ex g.name = false ∧ g ∈ cand := by
  unfold existenceFilter at hg
  have h := List.mem_filter.mp hg
  refine ⟨?_, h.1⟩
  have h2 := h.2
  simp at h2
  exact h2

theorem runRound_checked (ex : String → Bool) (issue : String → Nat → Except SpecErr String)
    (put : String → Nat → Except SpecErr Unit) (cand : List FileEntry) :
    (runRound ex issue put cand).checked = cand.map (fun f => f.name) := rfl

theorem resumeLoop_eq_done {ex : Nat → String → Bool} {k : Nat} {first : Bool}
    {cand : List FileEntry} (h0 : existenceFilter (ex k) cand = []) :
    resumeLoop ex k first cand =
      ⟨[⟨cand, existenceFilter (ex k) cand, false⟩], LoopStatus.done⟩ := by
  rw [resumeLoop]
  simp [h0]

theorem resumeLoop_eq_stalled {ex : Nat → String → Bool} {k : Nat} {cand : List FileEntry}
    (h0 : existenceFilter (ex k) cand ≠ []) (hs : existenceFilter (ex k) cand = cand) :
    resumeLoop ex k false cand =
      ⟨[⟨cand, existenceFilter (ex k) cand, false⟩],
       LoopStatus.stalled ((existenceFilter (ex k) cand).map (fun f => f.name))⟩ := by
  rw [resumeLoop]
  simp [h0, hs]
  intro hc
  exact h0 (by rw [hs, hc])

theorem resumeLoop_eq_step {ex : Nat → String → Bool} {k : Nat} {first : Bool}
    {cand : List FileEntry} (h0 : existenceFilter (ex k) cand ≠ [])
    (hs : ¬(first = false ∧ existenceFilter (ex k) cand = cand)) :
    resumeLoop ex k first cand =
      ⟨⟨cand, existenceFilter (ex k) cand, true⟩ ::
        (resumeLoop ex (k + 1) false (existenceFilter (ex k) cand)).rounds,
       (resumeLoop ex (k + 1) false (existenceFilter (ex k) cand)).status⟩ := by
  rw [resumeLoop]
  simp [h0, hs]

theorem resumeSessionLoop_eq_done (ex : Nat → String → Bool)
    (issue : String → Nat → Except SpecErr String)
    (put : String → Nat → Except SpecErr Unit) (k : Nat) (first : Bool)
    (cand : List FileEntry) (h0 : existenceFilter (ex k) cand = []) :
    resumeSessionLoop ex issue put k first cand =
      ⟨[checkOnlyRound (ex k) cand], LoopStatus.done⟩ := by
  rw [resumeSessionLoop]
  simp [h0]

theorem resumeSessionLoop_eq_stalled (ex : Nat → String → Bool)
    (issue : String → Nat → Except SpecErr String)
    (put : String → Nat → Except SpecErr Unit) (k : Nat) (cand : List FileEntry)
    (h0 : existenceFilter (ex k) cand ≠ []) (hs : existenceFilter (ex k) cand = cand) :
    resumeSessionLoop ex issue put k false cand =
      ⟨[checkOnlyRound (ex k) cand],
       LoopStatus.stalled ((existenceFilter (ex k) cand).map (fun f => f.name))⟩ := by
  rw [resumeSessionLoop]
  simp [h0, hs]
  intro hc
  exact h0 (by rw [hs, hc])

theorem resumeSessionLoop_eq_step (ex : Nat → String → Bool)
    (issue : String → Nat → Except SpecErr String)
    (put : String → Nat → Except SpecErr Unit) (k : Nat) (first : Bool)
    (cand : List FileEntry) (h0 : existenceFilter (ex k) cand ≠ [])
    (hs : ¬(first = false ∧ existenceFilter (ex k) cand = cand)) :
    resumeSessionLoop ex issue put k first cand =
      ⟨runRound (ex k) issue put cand ::
        (resumeSessionLoop ex issue put (k + 1) false (existenceFilter (ex k) cand)).rounds,
       (resumeSessionLoop ex issue put (k + 1) false (existenceFilter (ex k) cand)).status⟩ := by
  rw [resumeSessionLoop]
  simp [h0, hs]

theorem resumeLoop_spec_aux (ex : Nat → String → Bool) :
    ∀ (n k : Nat) (first : Bool) (cand : List FileEntry) (out : LoopRun),
      cand.length + (if first then 1 else 0) ≤ n →
      out = resumeLoop ex k first cand →
      out.rounds ≠ [] ∧
      (out.rounds.getD 0 roundDefault).cand = cand ∧
      (∀ i, i < out.rounds.length →
        (out.rounds.getD i roundDefault).toUpload =
          existenceFilter (ex (k + i)) (out.rounds.getD i roundDefault).cand) ∧
      (∀ i, i + 1 < out.rounds.length →
        (out.rounds.getD (i + 1) roundDefault).cand =
          (out.rounds.getD i roundDefault).toUpload ∧
        (out.rounds.getD i roundDefault).uploaded = true) ∧
      (out.status = LoopStatus.done →
        (out.rounds.getD (out.rounds.length - 1) roundDefault).toUpload = []) ∧
      (∀ rem, out.status = LoopStatus.stalled rem →
        (out.rounds.getD (out.rounds.length - 1) roundDefault).toUpload =
          (out.rounds.getD (out.rounds.length - 1) roundDefault).cand ∧
        rem = ((out.rounds.getD (out.rounds.length - 1) roundDefault).toUpload).map
          (fun f => f.name)) := by
  intro n
  induction n with
  | zero =>
    intro k first cand out hle hout
    have hf : first = false := by
      cases first with
      | false => rfl
      | true => simp at hle
    subst hf
    have hzero : (if false = true then 1 else 0) = 0 := rfl
    rw [hzero] at hle
    have hc : cand = [] := List.eq_nil_of_length_eq_zero (by omega)
    subst hc
    have h0 : existenceFilter (ex k) [] = [] := rfl
    rw [resumeLoop_eq_done h0] at hout
    subst hout
    refine ⟨by simp, rfl, ?_, ?_, ?_, ?_⟩
    · intro i hi
      have hi0 : i = 0 := by simpa using hi
      subst hi0
      simp [roundDefault]
    · intro i hi
      simp at hi
    · intro _
      exact h0
    · intro rem habs
      exact LoopStatus.noConfusion habs
  | succ n ihn =>
    intro k first cand out hle hout
    by_cases h0 : existenceFilter (ex k) cand = []
    · rw [resumeLoop_eq_done h0] at hout
      subst hout
      refine ⟨by simp, rfl, ?_, ?_, ?_, ?_⟩
      · intro i hi
        have hi0 : i = 0 := by simpa using hi
        subst hi0
        simp
      · intro i hi
        simp at hi
      · intro _
        exact h0
      · intro rem habs
        exact LoopStatus.noConfusion habs
    · by_cases hs : first = false ∧ existenceFilter (ex k) cand = cand
      · obtain ⟨hf, hteq⟩ := hs
        subst hf
        rw [resumeLoop_eq_stalled h0 hteq] at hout
        subst hout
        refine ⟨by simp, rfl, ?_, ?_, ?_, ?_⟩
        · intro i hi
          have hi0 : i = 0 := by simpa using hi
          subst hi0
          simp
        · intro i hi
          simp at hi
        · intro habs
          exact LoopStatus.noConfusion habs
        · intro rem hrem
          refine ⟨hteq, ?_⟩
          have h2 := LoopStatus.stalled.inj hrem
          simp [h2]
      · rw [resumeLoop_eq_step h0 hs] at hout
        have hmeas : (existenceFilter (ex k) cand).length + (if false then 1 else 0) ≤ n := by
          have hsub : (existenceFilter (ex k) cand).Sublist cand :=
            List.filter_sublist cand
          have hlen := hsub.length_le
          cases first with
          | true => simp at hle ⊢; omega
          | false =>
            have hne2 : existenceFilter (ex k) cand ≠ cand := by
              intro hcontra
              exact hs ⟨rfl, hcontra⟩
            have hlt : (existenceFilter (ex k) cand).length < cand.length :=
              Nat.lt_of_le_of_ne hlen (fun hl => hne2 (hsub.eq_of_length hl))
            simp at hle ⊢
            omega
        obtain ⟨ihne, ihcand, ihto, ihchain, ihdone, ihstall⟩ :=
          ihn (k + 1) false (existenceFilter (ex k) cand)
            (resumeLoop ex (k + 1) false (existenceFilter (ex k) cand)) hmeas rfl
        have hlenpos : 0 < (resumeLoop ex (k + 1) false (existenceFilter (ex k) cand)).rounds.length :=
          List.length_pos.mpr ihne
        subst hout
        refine ⟨by simp, rfl, ?_, ?_, ?_, ?_⟩
        · intro i hi
          cases i with
          | zero => simp
          | succ i2 =>
            have harith : k + (i2 + 1) = (k + 1) + i2 := by omega
            rw [harith]
            exact ihto i2 (by simpa using hi)
        · intro i hi
          cases i with
          | zero => exact ⟨ihcand, rfl⟩
          | succ i2 => exact ihchain i2 (by simpa using hi)
        · intro hdone2
          have hlen2 : (⟨cand, existenceFilter (ex k) cand, true⟩ ::
              (resumeLoop ex (k + 1) false (existenceFilter (ex k) cand)).rounds).length - 1 =
              ((resumeLoop ex (k + 1) false (existenceFilter (ex k) cand)).rounds.length - 1) + 1 := by
            simp
            omega
          rw [hlen2]
          exact ihdone hdone2
        · intro rem hrem
          have hlen2 : (⟨cand, existenceFilter (ex k) cand, true⟩ ::
              (resumeLoop ex (k + 1) false (existenceFilter (ex k) cand)).rounds).length - 1 =
              ((resumeLoop ex (k + 1) false (existenceFilter (ex k) cand)).rounds.length - 1) + 1 := by
            simp
            omega
          rw [hlen2]
          exact ihstall rem hrem

theorem resumeSessionLoop_invariants (ex : Nat → String → Bool)
    (issue : String → Nat → Except SpecErr String)
    (put : String → Nat → Except SpecErr Unit) :
    ∀ (n k : Nat) (first : Bool) (cand : List FileEntry) (out : SessionTrace),
      cand.length + (if first then 1 else 0) ≤ n →
      out = resumeSessionLoop ex issue put k first cand →
      out.rounds ≠ [] ∧
      (out.rounds.getD 0 roundRunDefault).checked = cand.map (fun f => f.name) ∧
      (∀ j, j < out.rounds.length →
        (out.rounds.getD j roundRunDefault).granted ⊆
          ((out.rounds.getD j roundRunDefault).toUpload).map (fun g => g.name) ∧
        (out.rounds.getD j roundRunDefault).putAttempted ⊆
          (out.rounds.getD j roundRunDefault).granted ∧
        (∀ g ∈ (out.rounds.getD j roundRunDefault).toUpload,
          ex (k + j) g.name = false ∧
          g.name ∈ (out.rounds.getD j roundRunDefault).checked)) ∧
      (∀ j, j + 1 < out.rounds.length →
        (out.rounds.getD (j + 1) roundRunDefault).checked =
          ((out.rounds.getD j roundRunDefault).toUpload).map (fun g => g.name)) := by
  intro n
  induction n with
  | zero =>
    intro k first cand out hle hout
    have hf : first = false := by
      cases first with
      | false => rfl
      | true => simp at hle
    subst hf
    have hzero : (if false = true then 1 else 0) = 0 := rfl
    rw [hzero] at hle
    have hc : cand = [] := List.eq_nil_of_length_eq_zero (by omega)
    subst hc
    have h0 : existenceFilter (ex k) [] = [] := rfl
    rw [resumeSessionLoop_eq_done ex issue put k false [] h0] at hout
    subst hout
    refine ⟨by simp, rfl, ?_, ?_⟩
    · intro j hj
      have hj0 : j = 0 := by simpa using hj
      subst hj0
      refine ⟨List.nil_subset _, List.nil_subset _, ?_⟩
      intro g hg
      exact absurd (existenceFilter_mem hg).2 (List.not_mem_nil g)
    · intro j hj
      simp at hj
  | succ n ihn =>
    intro k first cand out hle hout
    by_cases h0 : existenceFilter (ex k) cand = []
    · rw [resumeSessionLoop_eq_done ex issue put k first cand h0] at hout
      subst hout
      refine ⟨by simp, rfl, ?_, ?_⟩
      · intro j hj
        have hj0 : j = 0 := by simpa using hj
        subst hj0
        refine ⟨List.nil_subset _, List.nil_subset _, ?_⟩
        intro g hg
        have hgf := existenceFilter_mem hg
        refine ⟨by rw [Nat.add_zero]; exact hgf.1, ?_⟩
        exact List.mem_map.mpr ⟨g, hgf.2, rfl⟩
      · intro j hj
        simp at hj
    · by_cases hs : first = false ∧ existenceFilter (ex k) cand = cand
      · obtain ⟨hf, hteq⟩ := hs
        subst hf
        rw [resumeSessionLoop_eq_stalled ex issue put k cand h0 hteq] at hout
        subst hout
        refine ⟨by simp, rfl, ?_, ?_⟩
        · intro j hj
          have hj0 : j = 0 := by simpa using hj
          subst hj0
          refine ⟨List.nil_subset _, List.nil_subset _, ?_⟩
          intro g hg
          have hgf := existenceFilter_mem hg
          refine ⟨by rw [Nat.add_zero]; exact hgf.1, ?_⟩
          exact List.mem_map.mpr ⟨g, hgf.2, rfl⟩
        · intro j hj
          simp at hj
      · rw [resumeSessionLoop_eq_step ex issue put k first cand h0 hs] at hout
        have hmeas : (existenceFilter (ex k) cand).length + (if false then 1 else 0) ≤ n := by
          have hsub : (existenceFilter (ex k) cand).Sublist cand :=
            List.filter_sublist cand
          have hlen := hsub.length_le
          cases first with
          | true => simp at hle ⊢; omega
          | false =>
            have hne2 : existenceFilter (ex k) cand ≠ cand := by
              intro hcontra
              exact hs ⟨rfl, hcontra⟩
            have hlt : (existenceFilter (ex k) cand).length < cand.length :=
              Nat.lt_of_le_of_ne hlen (fun hl => hne2 (hsub.eq_of_length hl))
            simp at hle ⊢
            omega
        obtain ⟨ihne, ihch0, ihinv, ihchain⟩ :=
          ihn (k + 1) false (existenceFilter (ex k) cand)
            (resumeSessionLoop ex issue put (k + 1) false (existenceFilter (ex k) cand))
            hmeas rfl
        subst hout
        refine ⟨by simp, rfl, ?_, ?_⟩
        · intro j hj
          cases j with
          | zero =>
            simp only [List.getD_cons_zero]
            refine ⟨?_, runRound_putAttempted_sub (ex k) issue put cand, ?_⟩
            · rw [runRound_granted, runRound_toUpload]
              exact fun nm h => h
            · intro g hg
              rw [runRound_toUpload] at hg
              have hgf := existenceFilter_mem hg
              refine ⟨by rw [Nat.add_zero]; exact hgf.1, ?_⟩
              rw [runRound_checked]
              exact List.mem_map.mpr ⟨g, hgf.2, rfl⟩
          | succ j2 =>
            have harith : k + (j2 + 1) = (k + 1) + j2 := by omega
            rw [harith]
            exact ihinv j2 (by simpa using hj)
        · intro j hj
          cases j with
          | zero =>
            simp only [List.getD_cons_succ, List.getD_cons_zero]
            rw [ihch0, runRound_toUpload]
          | succ j2 =>
            exact ihchain j2 (by simpa using hj)

theorem resumeSessionLoop_shadows (ex : Nat → String → Bool)
    (issue : String → Nat → Except SpecErr String)
    (put : String → Nat → Except SpecErr Unit) :
    ∀ (n k : Nat) (first : Bool) (cand : List FileEntry),
      cand.length + (if first then 1 else 0) ≤ n →
      (resumeSessionLoop ex issue put k first cand).status =
        (resumeLoop ex k first cand).status ∧
      (resumeSessionLoop ex issue put k first cand).rounds.map (fun r => r.toUpload) =
        (resumeLoop ex k first cand).rounds.map (fun r => r.toUpload) ∧
      (resumeSessionLoop ex issue put k first cand).rounds.map (fun r => r.checked) =
        (resumeLoop ex k first cand).rounds.map (fun r => r.cand.map (fun f => f.name)) := by
  intro n
  induction n with
  | zero =>
    intro k first cand hle
    have hf : first = false := by
      cases first with
      | false => rfl
      | true => simp at hle
    subst hf
    have hzero : (if false = true then 1 else 0) = 0 := rfl
    rw [hzero] at hle
    have hc : cand = [] := List.eq_nil_of_length_eq_zero (by omega)
    subst hc
    have h0 : existenceFilter (ex k) [] = [] := rfl
    rw [resumeSessionLoop_eq_done ex issue put k false [] h0, resumeLoop_eq_done h0]
    exact ⟨rfl, rfl, rfl⟩
  | succ n ihn =>
    intro k first cand hle
    by_cases h0 : existenceFilter (ex k) cand = []
    · rw [resumeSessionLoop_eq_done ex issue put k first cand h0, resumeLoop_eq_done h0]
      exact ⟨rfl, rfl, rfl⟩
    · by_cases hs : first = false ∧ existenceFilter (ex k) cand = cand
      · obtain ⟨hf, hteq⟩ := hs
        subst hf
        rw [resumeSessionLoop_eq_stalled ex issue put k cand h0 hteq,
          resumeLoop_eq_stalled h0 hteq]
        exact ⟨rfl, rfl, rfl⟩
      · rw [resumeSessionLoop_eq_step ex issue put k first cand h0 hs,
          resumeLoop_eq_step h0 hs]
        have hmeas : (existenceFilter (ex k) cand).length + (if false then 1 else 0) ≤ n := by
          have hsub : (existenceFilter (ex k) cand).Sublist cand :=
            List.filter_sublist cand
          have hlen := hsub.length_le
          cases first with
          | true => simp at hle ⊢; omega
          | false =>
            have hne2 : existenceFilter (ex k) cand ≠ cand := by
              intro hcontra
              exact hs ⟨rfl, hcontra⟩
            have hlt : (existenceFilter (ex k) cand).length < cand.length :=
              Nat.lt_of_le_of_ne hlen (fun hl => hne2 (hsub.eq_of_length hl))
            simp at hle ⊢
            omega
        obtain ⟨ihs, ihto, ihch⟩ := ihn (k + 1) false (existenceFilter (ex k) cand) hmeas
        refine ⟨ihs, ?_, ?_⟩
        · rw [List.map_cons, List.map_cons, ihto]
          rfl
        · rw [List.map_cons, List.map_cons, ihch]
          rfl

theorem resumeSessionLoop_agrees (ex : Nat → String → Bool)
    (issue : String → Nat → Except SpecErr String)
    (put : String → Nat → Except SpecErr Unit) (k : Nat) (first : Bool)
    (cand : List FileEntry) :
    (resumeSessionLoop ex issue put k first cand).status =
      (resumeLoop ex k first cand).status ∧
    (resumeSessionLoop ex issue put k first cand).rounds.map (fun r => r.toUpload) =
      (resumeLoop ex k first cand).rounds.map (fun r => r.toUpload) ∧
    (resumeSessionLoop ex issue put k first cand).rounds.map (fun r => r.checked) =
      (resumeLoop ex k first cand).rounds.map (fun r => r.cand.map (fun f => f.name)) :=
  resumeSessionLoop_shadows ex issue put (cand.length + 1) k first cand
    (by cases first <;> simp)

end SpecModel

/-! Claim theorems.  The `spec_` prefixed claims are settled against the
`SpecModel` definitions (marked `Modelled from the spec:`), because the
component they describe is not part of `src/app.py`; the rest are settled
against the `AmiApp` embedding of `src/app.py`. -/

/-- C1: in the spec-modelled resume-loop session, once the existence
check of round `i` has confirmed a candidate file present
(`ex i f.name = true`), the pipeline never issues a presigned grant for
that file in round `i` nor in any later round of the same session, and
never runs a PUT step for it again; moreover, in every round of the
session, every issued grant goes to a file that was existence-checked in
that same round and found absent — the existence check precedes the
grant-issuance-and-PUT step for every candidate file. -/
theorem spec_exists_true_gets_no_grant (ex : Nat → String → Bool)
    (issue : String → Nat → Except SpecModel.SpecErr String)
    (put : String → Nat → Except SpecModel.SpecErr Unit)
    (files : List FileEntry) (f : FileEntry) (i : Nat)
    (_hi : i < (SpecModel.resumeSessionLoop ex issue put 0 true files).rounds.length)
    (_hcand : f.name ∈ ((SpecModel.resumeSessionLoop ex issue put 0 true files).rounds.getD i
      SpecModel.roundRunDefault).checked)
    (hex : ex i f.name = true) :
    (∀ j, i ≤ j →
      j < (SpecModel.resumeSessionLoop ex issue put 0 true files).rounds.length →
      f.name ∉ ((SpecModel.resumeSessionLoop ex issue put 0 true files).rounds.getD j
        SpecModel.roundRunDefault).granted ∧
      f.name ∉ ((SpecModel.resumeSessionLoop ex issue put 0 true files).rounds.getD j
        SpecModel.roundRunDefault).putAttempted) ∧
    (∀ j, j < (SpecModel.resumeSessionLoop ex issue put 0 true files).rounds.length →
      ∀ nm ∈ ((SpecModel.resumeSessionLoop ex issue put 0 true files).rounds.getD j
        SpecModel.roundRunDefault).granted,
      nm ∈ ((SpecModel.resumeSessionLoop ex issue put 0 true files).rounds.getD j
        SpecModel.roundRunDefault).checked ∧
      ∃ g, g ∈ ((SpecModel.resumeSessionLoop ex issue put 0 true files).rounds.getD j
        SpecModel.roundRunDefault).toUpload ∧ g.name = nm ∧ ex j g.name = false) := by
  obtain ⟨hne, hch0, hinv, hchain⟩ :=
    SpecModel.resumeSessionLoop_invariants ex issue put (files.length + 1) 0 true files
      (SpecModel.resumeSessionLoop ex issue put 0 true files) (by simp) rfl
  have hkey : ∀ j, i ≤ j →
      j < (SpecModel.resumeSessionLoop ex issue put 0 true files).rounds.length →
      f.name ∉ (((SpecModel.resumeSessionLoop ex issue put 0 true files).rounds.getD j
        SpecModel.roundRunDefault).toUpload).map (fun g => g.name) := by
    intro j hij
    induction j, hij using Nat.le_induction with
    | base =>
      intro hlen hmem
      rcases List.mem_map.mp hmem with ⟨g, hg, hgname⟩
      have h1 := (((hinv i hlen).2.2) g hg).1
      rw [hgname, Nat.zero_add, hex] at h1
      exact Bool.noConfusion h1
    | succ j hij2 ih =>
      intro hlen hmem
      have hjlt : j < (SpecModel.resumeSessionLoop ex issue put 0 true files).rounds.length := by
        omega
      rcases List.mem_map.mp hmem with ⟨g, hg, hgname⟩
      have hchk := (((hinv (j + 1) hlen).2.2) g hg).2
      rw [hchain j hlen, hgname] at hchk
      exact ih hjlt hchk
  constructor
  · intro j hij hlen
    constructor
    · intro hmem
      exact hkey j hij hlen ((hinv j hlen).1 hmem)
    · intro hmem
      exact hkey j hij hlen ((hinv j hlen).1 ((hinv j hlen).2.1 hmem))
  · intro j hlen nm hnm
    have hsub := (hinv j hlen).1 hnm
    rcases List.mem_map.mp hsub with ⟨g, hg, hgname⟩
    have hfacts := ((hinv j hlen).2.2) g hg
    refine ⟨hgname ▸ hfacts.2, g, hg, hgname, ?_⟩
    have h1 := hfacts.1
    rwa [Nat.zero_add] at h1

/-- Witness for C1 at a concrete two-round session: `b` is confirmed
present by round 0's existence check and receives no grant and no PUT
step in either round of the session. -/
theorem spec_exists_true_gets_no_grant_witness :
    fileB.name ∉ ((SpecModel.resumeSessionLoop exW issueOk putOkS 0 true
      [fileA, fileB]).rounds.getD 0 SpecModel.roundRunDefault).granted ∧
    fileB.name ∉ ((SpecModel.resumeSessionLoop exW issueOk putOkS 0 true
      [fileA, fileB]).rounds.getD 1 SpecModel.roundRunDefault).granted ∧
    fileB.name ∉ ((SpecModel.resumeSessionLoop exW issueOk putOkS 0 true
      [fileA, fileB]).rounds.getD 1 SpecModel.roundRunDefault).putAttempted := by
  have h1 : SpecModel.existenceFilter (exW 0) [fileA, fileB] = [fileA] := by decide
  have hsess : SpecModel.resumeSessionLoop exW issueOk putOkS 0 true [fileA, fileB] =
      ⟨[SpecModel.runRound (exW 0) issueOk putOkS [fileA, fileB],
        SpecModel.checkOnlyRound (exW 1) [fileA]],
       SpecModel.LoopStatus.stalled
         ((SpecModel.existenceFilter (exW 1) [fileA]).map (fun f => f.name))⟩ := by
    rw [SpecModel.resumeSessionLoop_eq_step exW issueOk putOkS 0 true [fileA, fileB]
      (by decide) (by simp), h1,
      SpecModel.resumeSessionLoop_eq_stalled exW issueOk putOkS 1 [fileA]
      (by decide) (by decide)]
  have hlen : (SpecModel.resumeSessionLoop exW issueOk putOkS 0 true
      [fileA, fileB]).rounds.length = 2 := by
    rw [hsess]
    rfl
  have h := spec_exists_true_gets_no_grant exW issueOk putOkS [fileA, fileB] fileB 0
    (by rw [hlen]; omega) (by rw [hsess]; decide) (by decide)
  exact ⟨(h.1 0 (by omega) (by rw [hlen]; omega)).1,
    (h.1 1 (by omega) (by rw [hlen]; omega)).1,
    (h.1 1 (by omega) (by rw [hlen]; omega)).2⟩

/-- C2: a remote call wrapped by the spec-modelled RetryPolicy that fails
transiently on every attempt is attempted exactly `max_attempts = 5`
times with the fixed `retry_delay = 2` slept between consecutive
attempts, the wrapped error is then surfaced unchanged, and in the
per-file pipeline such an issuance failure is recorded as that file's
terminal failure. -/
theorem spec_retry_ceiling {α : Type} (m : String)
    (call : Nat → Except SpecModel.SpecErr α)
    (put : String → Nat → Except SpecModel.SpecErr Unit)
    (issue : Nat → Except SpecModel.SpecErr String)
    (hcall : ∀ k, call k = .error (.transient m))
    (hissue : ∀ k, issue k = .error (.transient m)) :
    (SpecModel.retryPolicy call).attempts = SpecModel.max_attempts ∧
    SpecModel.max_attempts = 5 ∧
    (SpecModel.retryPolicy call).result = .error (.transient m) ∧
    (SpecModel.retryPolicy call).delays =
      List.replicate (SpecModel.max_attempts - 1) SpecModel.retry_delay ∧
    SpecModel.retry_delay = 2 ∧
    (SpecModel.runFilePipeline issue put).outcome = .failed (.transient m) ∧
    (SpecModel.runFilePipeline issue put).issueAttempts = SpecModel.max_attempts := by
  rw [SpecModel.retryPolicy_transient m call hcall,
    SpecModel.runFilePipeline_issue_fail m issue put hissue]
  exact ⟨rfl, rfl, rfl, rfl, rfl, rfl, rfl⟩

/-- Witness for C2 at a concrete always-transiently-failing call. -/
theorem spec_retry_ceiling_witness :
    (SpecModel.retryPolicy callBoom).attempts = SpecModel.max_attempts ∧
    SpecModel.max_attempts = 5 ∧
    (SpecModel.retryPolicy callBoom).result = .error (.transient "boom") ∧
    (SpecModel.retryPolicy callBoom).delays =
      List.replicate (SpecModel.max_attempts - 1) SpecModel.retry_delay ∧
    SpecModel.retry_delay = 2 ∧
    (SpecModel.runFilePipeline issueBoom putOkS).outcome = .failed (.transient "boom") ∧
    (SpecModel.runFilePipeline issueBoom putOkS).issueAttempts = SpecModel.max_attempts :=
  spec_retry_ceiling "boom" callBoom putOkS issueBoom (fun _ => rfl) (fun _ => rfl)

/-- C3: the spec-modelled resume loop starts from the full candidate set,
re-runs the existence check of round `i` over exactly the still-missing
subset computed by round `i - 1` (whose upload step ran), and its
terminal state is only ever Done with an empty remaining set, or Stalled
when a round's check returns its own input set unchanged — no further
progress possible. -/
theorem spec_resume_loop_rounds (ex : Nat → String → Bool) (files : List FileEntry) :
    (SpecModel.resumeLoop ex 0 true files).rounds ≠ [] ∧
    ((SpecModel.resumeLoop ex 0 true files).rounds.getD 0 SpecModel.roundDefault).cand = files ∧
    (∀ i, i < (SpecModel.resumeLoop ex 0 true files).rounds.length →
      ((SpecModel.resumeLoop ex 0 true files).rounds.getD i SpecModel.roundDefault).toUpload =
        SpecModel.existenceFilter (ex i)
          ((SpecModel.resumeLoop ex 0 true files).rounds.getD i SpecModel.roundDefault).cand) ∧
    (∀ i, i + 1 < (SpecModel.resumeLoop ex 0 true files).rounds.length →
      ((SpecModel.resumeLoop ex 0 true files).rounds.getD (i + 1) SpecModel.roundDefault).cand =
        ((SpecModel.resumeLoop ex 0 true files).rounds.getD i SpecModel.roundDefault).toUpload ∧
      ((SpecModel.resumeLoop ex 0 true files).rounds.getD i SpecModel.roundDefault).uploaded =
        true) ∧
    ((SpecModel.resumeLoop ex 0 true files).status = SpecModel.LoopStatus.done →
      ((SpecModel.resumeLoop ex 0 true files).rounds.getD
        ((SpecModel.resumeLoop ex 0 true files).rounds.length - 1)
        SpecModel.roundDefault).toUpload = []) ∧
    (∀ rem, (SpecModel.resumeLoop ex 0 true files).status = SpecModel.LoopStatus.stalled rem →
      ((SpecModel.resumeLoop ex 0 true files).rounds.getD
        ((SpecModel.resumeLoop ex 0 true files).rounds.length - 1)
        SpecModel.roundDefault).toUpload =
        ((SpecModel.resumeLoop ex 0 true files).rounds.getD
          ((SpecModel.resumeLoop ex 0 true files).rounds.length - 1)
          SpecModel.roundDefault).cand ∧
      rem = (((SpecModel.resumeLoop ex 0 true files).rounds.getD
        ((SpecModel.resumeLoop ex 0 true files).rounds.length - 1)
        SpecModel.roundDefault).toUpload).map (fun f => f.name)) := by
  obtain ⟨hne, hcand, hto, hchain, hdone, hstall⟩ :=
    SpecModel.resumeLoop_spec_aux ex (files.length + 1) 0 true files
      (SpecModel.resumeLoop ex 0 true files) (by simp) rfl
  refine ⟨hne, hcand, ?_, hchain, hdone, hstall⟩
  intro i hi
  have h := hto i hi
  rwa [Nat.zero_add] at h

/-- Witness for C3 at a concrete run: with every file already present,
the loop is Done after one round and the final remaining set is empty. -/
theorem spec_resume_loop_rounds_witness :
    ((SpecModel.resumeLoop exTrue 0 true [fileA]).rounds.getD
      ((SpecModel.resumeLoop exTrue 0 true [fileA]).rounds.length - 1)
      SpecModel.roundDefault).toUpload = [] := by
  have h := spec_resume_loop_rounds exTrue [fileA]
  have hst : (SpecModel.resumeLoop exTrue 0 true [fileA]).status = SpecModel.LoopStatus.done := by
    rw [SpecModel.resumeLoop_eq_done (by decide)]
  exact h.2.2.2.2.1 hst

/-- Counterexample to C4 as stated: `upload_files_in_batches` produces no
per-file report covering every requested file.  With 51 files (two
batches under the default batch size 50) and every PUT failing, the
session aborts on the first PUT failure of batch 1: the 51st file `y` is
requested but appears in no per-file observable of the session — not in
any recorded error, not as a completed or failed PUT, never even
presign-called — so it is silently omitted. -/
theorem report_completeness_cex :
    fileY ∈ files51 ∧
    fileY.name ∉ AmiApp.sessionMentions
      (AmiApp.handle_upload envPutFailAll orders50 files51) ∧
    fileY.name ∉ AmiApp.sessionCalls
      (AmiApp.handle_upload envPutFailAll orders50 files51) ∧
    (AmiApp.handle_upload envPutFailAll orders50 files51).raised =
      some ("x", ⟨500, "boom"⟩) := by decide

/-- C4 amended: the entry point returns no Report; its per-file
observables are the recorded presign errors and the PUT terminal states.
Provided no PUT fails (so no batch aborts the session), these
observables cover every originally requested file exactly once; a PUT
failure instead aborts the session and later files go unmentioned, as
the counterexample shows. -/
theorem report_completeness_amended (env : AmiApp.Env) (orders : Nat → List Nat)
    (files : List FileEntry) (bs : Nat) (hbs : 0 < bs)
    (hput : ∀ u, env.put u = .ok ())
    (hv : ∀ j, j < (AmiApp.sliceBatches files bs).length →
      (orders j).Perm (List.range
        (AmiApp.collectTasks env ((AmiApp.sliceBatches files bs).getD j [])).tasks.length)) :
    (AmiApp.upload_files_in_batches env orders files bs).raised = none ∧
    (AmiApp.sessionMentions (AmiApp.upload_files_in_batches env orders files bs)).Perm
      (files.map (fun f => f.name)) := by
  have hv2 : ∀ i, i < (AmiApp.sliceBatches files bs).length →
      (orders (0 + i)).Perm (List.range
        (AmiApp.collectTasks env ((AmiApp.sliceBatches files bs).getD i [])).tasks.length) := by
    intro i hi
    rw [Nat.zero_add]
    exact hv i hi
  obtain ⟨h1, h2, h3, h4⟩ :=
    AmiApp.runBatches_allOk env orders hput (AmiApp.sliceBatches files bs) 0 hv2
  refine ⟨h1, ?_⟩
  rw [AmiApp.sliceBatches_flatten hbs files] at h2
  exact h2

/-- Witness for the amended C4 at a concrete all-successful run. -/
theorem report_completeness_amended_witness :
    (AmiApp.upload_files_in_batches envAllOk ordersOne [fileA] 1).raised = none ∧
    (AmiApp.sessionMentions (AmiApp.upload_files_in_batches envAllOk ordersOne [fileA] 1)).Perm
      ([fileA].map (fun f => f.name)) := by
  refine report_completeness_amended envAllOk ordersOne [fileA] 1 (by decide) (fun _ => rfl) ?_
  intro j hj
  have hlen : (AmiApp.sliceBatches [fileA] 1).length = 1 := by decide
  rw [hlen] at hj
  have hj0 : j = 0 := by omega
  subst hj0
  decide

/-- Counterexample to C5 as stated: a 401 on the presign call for file
`a` does not abort the session.  In the same batch the presign request
for file `b` is still issued (`calls = [a, b]`), `b` is even PUT and
completed, and a per-file error entry is recorded for `a` while
processing continues — there is no immediate session abort in
`upload_files` (src/app.py lines 144-154 catch every exception per file
and continue the loop). -/
theorem auth_short_circuit_cex :
    envAuth401.presign fileA.name = .error ⟨401, "Unauthorized"⟩ ∧
    (AmiApp.upload_files envAuth401 [0] [fileA, fileB]).calls = ["a", "b"] ∧
    (AmiApp.upload_files envAuth401 [0] [fileA, fileB]).errors =
      [("a", ⟨401, "Unauthorized"⟩)] ∧
    (AmiApp.upload_files envAuth401 [0] [fileA, fileB]).completed = ["b"] := by decide

/-- C5 amended: a 401 from a presign call is caught and recorded as that
file's failure and the session continues — as long as no PUT raises
(PUT results are independent of presign failures here because a
401-failed file creates no PUT task), every file of every batch still
receives its presign call, and every presign failure (401 included) is
recorded against its own file inside some executed batch. -/
theorem auth_error_does_not_abort (env : AmiApp.Env) (orders : Nat → List Nat)
    (files : List FileEntry) (bs : Nat) (hbs : 0 < bs)
    (hput : ∀ u, env.put u = .ok ()) :
    AmiApp.sessionCalls (AmiApp.upload_files_in_batches env orders files bs) =
      files.map (fun f => f.name) ∧
    (∀ f e, f ∈ files → env.presign f.name = .error e →
      ∃ r ∈ (AmiApp.upload_files_in_batches env orders files bs).batchRuns,
        (f.name, e) ∈ r.errors) := by
  obtain ⟨h1, h2, h3⟩ :=
    AmiApp.runBatches_calls_errors env orders hput (AmiApp.sliceBatches files bs) 0
  constructor
  · rw [AmiApp.sliceBatches_flatten hbs files] at h2
    exact h2
  · intro f e hf hpre
    rw [← AmiApp.sliceBatches_flatten hbs files] at hf
    exact h3 f e hf hpre

/-- Witness for the amended C5: with a 401 on file `a`, both files of the
batch are still presign-called. -/
theorem auth_error_does_not_abort_witness :
    AmiApp.sessionCalls (AmiApp.upload_files_in_batches envAuth401 ordersOne [fileA, fileB] 2) =
      [fileA, fileB].map (fun f => f.name) :=
  (auth_error_does_not_abort envAuth401 ordersOne [fileA, fileB] 2
    (by decide) (fun _ => rfl)).1

/-- Counterexample to C6 as stated: both files of a batch are dispatched
as PUT tasks; file `a`'s PUT fails first in completion order, the
failure propagates immediately out of `asyncio.gather`, and the batch
returns with sibling `b` neither completed nor recorded anywhere — `b`
did not reach a terminal state before the batch returned. -/
theorem sibling_terminal_cex :
    (AmiApp.upload_files envPutFailA [0, 1] [fileA, fileB]).tasks.map
      (fun t => t.file.name) = ["a", "b"] ∧
    (AmiApp.upload_files envPutFailA [0, 1] [fileA, fileB]).raised =
      some ("a", ⟨500, "boom"⟩) ∧
    "b" ∉ (AmiApp.upload_files envPutFailA [0, 1] [fileA, fileB]).completed ∧
    (AmiApp.upload_files envPutFailA [0, 1] [fileA, fileB]).errors = [] := by decide

/-- C6 amended: a grant-issuance (presign) failure for one file is
recorded for that file alone and does not cancel its siblings — the
batch does not raise and every other file still reaches its terminal
state (its own recorded error, or a completed PUT) before the batch
returns, provided the PUTs themselves succeed; a failing PUT instead
propagates immediately and leaves not-yet-completed siblings without a
terminal state, as the counterexample shows. -/
theorem presign_failure_spares_siblings (env : AmiApp.Env) (order : List Nat)
    (files : List FileEntry) (hput : ∀ u, env.put u = .ok ())
    (hv : order.Perm (List.range (AmiApp.collectTasks env files).tasks.length)) :
    (AmiApp.upload_files env order files).raised = none ∧
    (∀ f ∈ files,
      (∀ e, env.presign f.name = .error e →
        (f.name, e) ∈ (AmiApp.upload_files env order files).errors) ∧
      (∀ u, env.presign f.name = .ok u →
        f.name ∈ (AmiApp.upload_files env order files).completed)) := by
  refine ⟨(AmiApp.upload_files_allOk env order files hput).1, ?_⟩
  intro f hf
  constructor
  · intro e he
    exact AmiApp.upload_files_errors_mem env order files hf he
  · intro u hu
    have hperm := AmiApp.upload_files_completed_perm env order files hput hv
    have htn : f.name ∈ (AmiApp.collectTasks env files).tasks.map
        (fun t : AmiApp.PutTask => t.file.name) := by
      rw [AmiApp.collectTasks_eq]
      exact List.mem_map.mpr ⟨⟨u, f⟩, List.mem_filterMap.mpr ⟨f, hf, by rw [hu]⟩, rfl⟩
    exact hperm.mem_iff.mpr htn

/-- Witness for the amended C6: file `a`'s presign 401 is recorded for
`a` alone, the batch does not raise, and sibling `b` still completes. -/
theorem presign_failure_spares_siblings_witness :
    (AmiApp.upload_files envAuth401 [0] [fileA, fileB]).raised = none ∧
    (fileA.name, (⟨401, "Unauthorized"⟩ : AmiApp.RemoteErr)) ∈
      (AmiApp.upload_files envAuth401 [0] [fileA, fileB]).errors ∧
    fileB.name ∈ (AmiApp.upload_files envAuth401 [0] [fileA, fileB]).completed := by
  have h := presign_failure_spares_siblings envAuth401 [0] [fileA, fileB]
    (fun _ => rfl) (by decide)
  exact ⟨h.1, (h.2 fileA (by decide)).1 ⟨401, "Unauthorized"⟩ (by decide),
    (h.2 fileB (by decide)).2 "b" (by decide)⟩

/-- Counterexample to C7 as stated: the configured default batch size of
`upload_files_in_batches` (src/app.py line 104) is 50, not 100 — a
100-file candidate set is split into two batches of 50 rather than one
batch of 100. -/
theorem batch_default_size_cex :
    AmiApp.batch_size_default = 50 ∧
    AmiApp.batch_size_default ≠ 100 ∧
    (AmiApp.sliceBatches files100 AmiApp.batch_size_default).length = 2 ∧
    (AmiApp.sliceBatches files100 AmiApp.batch_size_default).map List.length =
      [50, 50] := by decide

/-- C7 amended: the scheduler partitions the candidate sequence into
consecutive batches of the configured batch size — batch `i` is the
window of length `min bs (n - i * bs)`, so every batch except possibly
the final one has exactly the configured size — and the observed default
batch size is 50. -/
theorem batch_partition_sizes {α : Type} (l : List α) (bs : Nat) (hbs : 0 < bs) :
    AmiApp.batch_size_default = 50 ∧
    (∀ i, ((AmiApp.sliceBatches l bs).getD i []).length = min bs (l.length - i * bs)) := by
  refine ⟨rfl, ?_⟩
  intro i
  rw [AmiApp.sliceBatches_getD hbs l i, List.length_take, List.length_drop]

/-- Witness for the amended C7 at a concrete slicing. -/
theorem batch_partition_sizes_witness :
    AmiApp.batch_size_default = 50 ∧
    ((AmiApp.sliceBatches [fileA, fileB, fileY] 2).getD 1 []).length =
      min 2 ([fileA, fileB, fileY].length - 1 * 2) :=
  ⟨(batch_partition_sizes [fileA, fileB, fileY] 2 (by decide)).1,
   (batch_partition_sizes [fileA, fileB, fileY] 2 (by decide)).2 1⟩

/-- C8: batches run strictly one after another — wherever the session
trace shows batch `i + 1` starting, every file of batch `i` has already
reached a terminal state (a recorded presign failure or a completed PUT)
strictly earlier in the trace, and batch `i`'s results were collected
(its `batchEnd` is also earlier); `hv` states that the completion order
of each batch covers exactly its dispatched PUT tasks. -/
theorem batches_sequential (env : AmiApp.Env) (orders : Nat → List Nat)
    (files : List FileEntry) (bs i : Nat) (pre suf : List AmiApp.Ev)
    (hv : ∀ j, j < (AmiApp.sliceBatches files bs).length →
      (orders j).Perm (List.range
        (AmiApp.collectTasks env ((AmiApp.sliceBatches files bs).getD j [])).tasks.length))
    (hsplit : (AmiApp.upload_files_in_batches env orders files bs).trace =
      pre ++ AmiApp.Ev.batchStart (i + 1) :: suf) :
    (∀ f ∈ (AmiApp.sliceBatches files bs).getD i [],
      AmiApp.Ev.presignFail f.name ∈ pre ∨ AmiApp.Ev.putTerminal f.name ∈ pre) ∧
    AmiApp.Ev.batchEnd i ∈ pre := by
  have hv2 : ∀ idx, idx < (AmiApp.sliceBatches files bs).length →
      (orders (0 + idx)).Perm (List.range
        (AmiApp.collectTasks env ((AmiApp.sliceBatches files bs).getD idx [])).tasks.length) := by
    intro idx hidx
    rw [Nat.zero_add]
    exact hv idx hidx
  have hsplit2 : (AmiApp.runBatches env orders 0 (AmiApp.sliceBatches files bs)).trace =
      pre ++ AmiApp.Ev.batchStart (0 + i + 1) :: suf := by
    rw [Nat.zero_add]
    exact hsplit
  have h := AmiApp.runBatches_start_split env orders (AmiApp.sliceBatches files bs)
    0 i pre suf hv2 hsplit2
  rwa [Nat.zero_add] at h

/-- Witness for C8 at a concrete two-batch run: when batch 1 starts, the
file of batch 0 is terminal and batch 0 has ended. -/
theorem batches_sequential_witness :
    (AmiApp.Ev.presignFail fileA.name ∈
      [AmiApp.Ev.batchStart 0, AmiApp.Ev.putTerminal "a", AmiApp.Ev.batchEnd 0] ∨
     AmiApp.Ev.putTerminal fileA.name ∈
      [AmiApp.Ev.batchStart 0, AmiApp.Ev.putTerminal "a", AmiApp.Ev.batchEnd 0]) ∧
    AmiApp.Ev.batchEnd 0 ∈
      [AmiApp.Ev.batchStart 0, AmiApp.Ev.putTerminal "a", AmiApp.Ev.batchEnd 0] := by
  have h := batches_sequential envAllOk ordersW [fileA, fileB] 1 0
    [AmiApp.Ev.batchStart 0, AmiApp.Ev.putTerminal "a", AmiApp.Ev.batchEnd 0]
    [AmiApp.Ev.putTerminal "b", AmiApp.Ev.batchEnd 1]
    (by
      intro j hj
      have hlen : (AmiApp.sliceBatches [fileA, fileB] 1).length = 2 := by decide
      rw [hlen] at hj
      rcases j with _ | _ | j
      · decide
      · decide
      · omega)
    (by decide)
  exact ⟨h.1 fileA (by decide), h.2⟩

/-- C9: when more than `max_num_files = 1000` files are selected, `main`
passes only the first 1000 to the upload pipeline
(`uploaded_files[:max_num_files]`, src/app.py line 225); every per-file
observable of the resulting session names one of those first 1000
files, so the files after the 1000th are never presigned, uploaded or
reported. -/
theorem selection_truncated_to_1000 (files : List FileEntry)
    (h : files.length > AmiApp.max_num_files) :
    AmiApp.truncate_selection files = files.take AmiApp.max_num_files ∧
    (∀ env orders,
      AmiApp.sessionMentions (AmiApp.main_submit env orders files) ⊆
        (files.take AmiApp.max_num_files).map (fun f => f.name)) := by
  have ht : AmiApp.truncate_selection files = files.take AmiApp.max_num_files := by
    unfold AmiApp.truncate_selection
    rw [if_pos h]
  refine ⟨ht, ?_⟩
  intro env orders x hx
  have h2 := AmiApp.runBatches_mentions_sub env orders
    (AmiApp.sliceBatches (AmiApp.truncate_selection files) AmiApp.batch_size_default) 0 x hx
  have h3 : (AmiApp.sliceBatches (AmiApp.truncate_selection files)
      AmiApp.batch_size_default).flatten = files.take AmiApp.max_num_files := by
    rw [AmiApp.sliceBatches_flatten (by decide : 0 < AmiApp.batch_size_default), ht]
  rw [h3] at h2
  exact h2

/-- Witness for C9: 1001 selected files are truncated to the first
1000. -/
theorem selection_truncated_to_1000_witness :
    AmiApp.truncate_selection files1001 = files1001.take AmiApp.max_num_files :=
  (selection_truncated_to_1000 files1001
    (by
      have hlen : files1001.length = 1001 := by
        unfold files1001
        rw [List.length_replicate]
      rw [hlen]
      unfold AmiApp.max_num_files
      omega)).1

/-- C10: for a positive batch size, slicing at indices
`0, bs, 2*bs, ...` partitions the input — the batches are the pairwise
disjoint index windows `l.drop (i*bs) |>.take bs`, and their
concatenation in order is exactly the input list, so every input file
goes to exactly one batch, once, in input order. -/
theorem batches_partition_input {α : Type} (l : List α) (bs : Nat) (hbs : 0 < bs) :
    (AmiApp.sliceBatches l bs).flatten = l ∧
    (∀ i, (AmiApp.sliceBatches l bs).getD i [] = (l.drop (i * bs)).take bs) :=
  ⟨AmiApp.sliceBatches_flatten hbs l, fun i => AmiApp.sliceBatches_getD hbs l i⟩

/-- Witness for C10 at a concrete slicing. -/
theorem batches_partition_input_witness :
    (AmiApp.sliceBatches [fileA, fileB, fileY] 2).flatten = [fileA, fileB, fileY] ∧
    (AmiApp.sliceBatches [fileA, fileB, fileY] 2).getD 1 [] =
      ([fileA, fileB, fileY].drop (1 * 2)).take 2 :=
  ⟨(batches_partition_input [fileA, fileB, fileY] 2 (by decide)).1,
   (batches_partition_input [fileA, fileB, fileY] 2 (by decide)).2 1⟩
